import Mathlib

/-!
# Verification of the Orion chat front-end logic

Shallow embedding of the testable logic of the Orion repository:

* `findResponseText` — the recursive response-text extractor of
  `src/services/orionService.ts`;
* the context-summary construction and response handling of
  `sendMessageToOrion` (same file);
* the session-store operations `updateCurrentMessages`, `deleteSession`,
  `createNewSession` and the initialization effect of the `App` component;
* models of the JavaScript platform primitives the code relies on
  (`JSON.parse`, `JSON.stringify`, `String.prototype.trim`, truthiness).

JavaScript strings are modelled as Lean `String`s (sequences of code
points); machine integers do not occur in the verified logic.
-/

/-- Model of a JavaScript JSON value (the possible results of `JSON.parse`).
Object fields are kept in textual/insertion order.  Numbers are modelled as
integers: no verified property depends on numeric values beyond zero-ness. -/
inductive Json where
  | null : Json
  | bool (b : Bool) : Json
  | num (n : Int) : Json
  | str (s : String) : Json
  | arr (items : List Json) : Json
  | obj (fields : List (String × Json)) : Json

mutual

/-- Structural size of a JSON value; strings count their length.  Used as a
fuel bound for the extractor: re-parsing a string embedded in a value always
yields a value of strictly smaller size. -/
def Json.size : Json → Nat
  | .null => 1
  | .bool _ => 1
  | .num _ => 1
  | .str s => 1 + s.length
  | .arr items => 1 + Json.sizeItems items
  | .obj fields => 1 + Json.sizeFields fields

/-- Total size of a list of JSON values. -/
def Json.sizeItems : List Json → Nat
  | [] => 0
  | v :: vs => Json.size v + Json.sizeItems vs

/-- Total size of an object field list (keys count their length). -/
def Json.sizeFields : List (String × Json) → Nat
  | [] => 0
  | (k, v) :: fs => k.length + Json.size v + Json.sizeFields fs

end

/-- JavaScript truthiness restricted to JSON values: `null`, `false`, `0` and
`""` are falsy; objects and arrays are always truthy. -/
def jsFalsy : Json → Bool
  | .null => true
  | .bool b => !b
  | .num n => n == 0
  | .str s => s == ""
  | .arr _ => false
  | .obj _ => false

/-- Whitespace accepted between tokens by the JSON grammar
(`JSON.parse`): space, tab, line feed, carriage return. -/
def jsonWs (c : Char) : Bool :=
  c == ' ' || c == '\t' || c == '\n' || c == '\r'

/-- Skip JSON inter-token whitespace. -/
def skipWs : List Char → List Char
  | [] => []
  | c :: cs => if jsonWs c then skipWs cs else c :: cs

/-- Decimal digit test. -/
def isDigitChar (c : Char) : Bool := '0' ≤ c && c ≤ '9'

/-- Value of a hexadecimal digit, if `c` is one. -/
def hexVal (c : Char) : Option Nat :=
  if '0' ≤ c && c ≤ '9' then some (c.toNat - '0'.toNat)
  else if 'a' ≤ c && c ≤ 'f' then some (10 + c.toNat - 'a'.toNat)
  else if 'A' ≤ c && c ≤ 'F' then some (10 + c.toNat - 'A'.toNat)
  else none

/-- Decoded form of a single-character JSON string escape (`\\e`). -/
def unescapeChar (e : Char) : Option Char :=
  if e == '"' then some '"'
  else if e == '\\' then some '\\'
  else if e == '/' then some '/'
  else if e == 'b' then some '\x08'
  else if e == 'f' then some '\x0c'
  else if e == 'n' then some '\n'
  else if e == 'r' then some '\r'
  else if e == 't' then some '\t'
  else none

/-- Body of a JSON string literal, after the opening quote: returns the
decoded characters and the input remaining after the closing quote.
Handles the escapes of the JSON grammar (`\u` before the generic escape
rule); unescaped control characters are rejected, as in `JSON.parse`. -/
def parseStringBody : List Char → Option (List Char × List Char)
  | [] => none
  | '"' :: cs => some ([], cs)
  | '\\' :: 'u' :: h1 :: h2 :: h3 :: h4 :: cs3 =>
    (match hexVal h1, hexVal h2, hexVal h3, hexVal h4 with
     | some a, some b, some c', some d =>
       match parseStringBody cs3 with
       | some (content, rest) =>
         some (Char.ofNat (((a * 16 + b) * 16 + c') * 16 + d) :: content, rest)
       | none => none
     | _, _, _, _ => none)
  | '\\' :: e :: cs2 =>
    (match unescapeChar e with
     | some d =>
       match parseStringBody cs2 with
       | some (content, rest) => some (d :: content, rest)
       | none => none
     | none => none)
  | ['\\'] => none
  | c :: cs =>
    if c.toNat < 32 then none
    else
      match parseStringBody cs with
      | some (content, rest) => some (c :: content, rest)
      | none => none

/-- Split a leading run of decimal digits off the input. -/
def takeDigits : List Char → (List Char × List Char)
  | [] => ([], [])
  | c :: cs =>
    if isDigitChar c then
      let (ds, rest) := takeDigits cs
      (c :: ds, rest)
    else ([], c :: cs)

/-- Numeric value of a list of decimal digits. -/
def digitsToNat (ds : List Char) : Nat :=
  ds.foldl (fun acc c => acc * 10 + (c.toNat - '0'.toNat)) 0

/-- Require at least one decimal digit, consuming the whole run. -/
def expectDigits (cs : List Char) : Option (List Char) :=
  match takeDigits cs with
  | (ds, rest) => if ds.isEmpty then none else some rest

/-- Consume an optional fraction part (`.` followed by digits). -/
def skipFrac : List Char → Option (List Char)
  | '.' :: cs => expectDigits cs
  | cs => some cs

/-- Consume an optional exponent part (`e`/`E`, optional sign, digits). -/
def skipExp : List Char → Option (List Char)
  | 'e' :: '+' :: cs => expectDigits cs
  | 'e' :: '-' :: cs => expectDigits cs
  | 'e' :: cs => expectDigits cs
  | 'E' :: '+' :: cs => expectDigits cs
  | 'E' :: '-' :: cs => expectDigits cs
  | 'E' :: cs => expectDigits cs
  | cs => some cs

/-- The digit/fraction/exponent tail of a JSON number token, after an
optional leading minus sign. -/
def parseIntTail (neg : Bool) (cs2 : List Char) : Option (Json × List Char) :=
  match takeDigits cs2 with
  | (ds, rest) =>
    if ds.isEmpty then none
    else
      match skipFrac rest with
      | some rest2 =>
        match skipExp rest2 with
        | some rest3 =>
          some (Json.num (if neg then -(digitsToNat ds : Int) else (digitsToNat ds : Int)), rest3)
        | none => none
      | none => none

/-- Parse a JSON number token.  The integer part becomes the stored value;
fraction and exponent are consumed and discarded (no verified property
depends on non-integral numeric values). -/
def parseNumber (cs : List Char) : Option (Json × List Char) :=
  match cs with
  | '-' :: cs2 => parseIntTail true cs2
  | _ => parseIntTail false cs

/-- Check for a literal prefix (`null`, `true`, `false`). -/
def stripLit (lit : List Char) (cs : List Char) : Option (List Char) :=
  match lit, cs with
  | [], rest => some rest
  | l :: ls, c :: cs' => if l == c then stripLit ls cs' else none
  | _ :: _, [] => none

mutual

/-- Model of the JSON grammar value production: parse one JSON value off the
front of the input (with leading whitespace), returning it together with the
unconsumed remainder.  Fuel-indexed; `jsonParseChars` supplies sufficient
fuel. -/
def parseVal : Nat → List Char → Option (Json × List Char)
  | 0, _ => none
  | n + 1, cs =>
    match skipWs cs with
    | [] => none
    | c :: cs' =>
      if c == 'n' then
        match stripLit ['u', 'l', 'l'] cs' with
        | some rest => some (Json.null, rest)
        | none => none
      else if c == 't' then
        match stripLit ['r', 'u', 'e'] cs' with
        | some rest => some (Json.bool true, rest)
        | none => none
      else if c == 'f' then
        match stripLit ['a', 'l', 's', 'e'] cs' with
        | some rest => some (Json.bool false, rest)
        | none => none
      else if c == '"' then
        match parseStringBody cs' with
        | some (content, rest) => some (Json.str (String.mk content), rest)
        | none => none
      else if c == '[' then
        match skipWs cs' with
        | ']' :: rest => some (Json.arr [], rest)
        | _ =>
          match parseItems n cs' with
          | some (vs, rest) => some (Json.arr vs, rest)
          | none => none
      else if c == '{' then
        match skipWs cs' with
        | '}' :: rest => some (Json.obj [], rest)
        | _ =>
          match parseFields n cs' with
          | some (fs, rest) => some (Json.obj fs, rest)
          | none => none
      else parseNumber (c :: cs')

/-- Parse the items of a non-empty array, up to and including `]`. -/
def parseItems : Nat → List Char → Option (List Json × List Char)
  | 0, _ => none
  | n + 1, cs =>
    match parseVal n cs with
    | some (v, rest) =>
      match skipWs rest with
      | ',' :: rest2 =>
        match parseItems n rest2 with
        | some (vs, rest3) => some (v :: vs, rest3)
        | none => none
      | ']' :: rest2 => some ([v], rest2)
      | _ => none
    | none => none

/-- Parse the fields of a non-empty object, up to and including `}`. -/
def parseFields : Nat → List Char → Option (List (String × Json) × List Char)
  | 0, _ => none
  | n + 1, cs =>
    match skipWs cs with
    | '"' :: cs' =>
      match parseStringBody cs' with
      | some (key, rest) =>
        match skipWs rest with
        | ':' :: rest2 =>
          match parseVal n rest2 with
          | some (v, rest3) =>
            match skipWs rest3 with
            | ',' :: rest4 =>
              match parseFields n rest4 with
              | some (fs, rest5) => some ((String.mk key, v) :: fs, rest5)
              | none => none
            | '}' :: rest4 => some ([(String.mk key, v)], rest4)
            | _ => none
          | none => none
        | _ => none
      | none => none
    | _ => none

end

/-- Model of `JSON.parse` on a character list: parse one value, then require
that only whitespace remains.  The fuel `2 * length + 2` is sufficient for
every input (established by the round-trip development below); insufficient
fuel can only turn a success into a failure, never change a parsed value. -/
def jsonParseChars (cs : List Char) : Option Json :=
  match parseVal (2 * cs.length + 2) cs with
  | some (v, rest) => if skipWs rest = [] then some v else none
  | none => none

/-- Model of `JSON.parse` on strings. -/
def jsonParseStr (s : String) : Option Json :=
  jsonParseChars s.data

/-- Whitespace removed by `String.prototype.trim` (the JavaScript set also
includes rarer Unicode space characters; the model covers the common ones). -/
def jsTrimWs (c : Char) : Bool :=
  c == ' ' || c == '\t' || c == '\n' || c == '\r' || c == '\x0b' ||
  c == '\x0c' || c == '\u00A0' || c == '\uFEFF'

/-- Model of `String.prototype.trim` at the character-list level. -/
def jsTrimChars (cs : List Char) : List Char :=
  ((cs.dropWhile jsTrimWs).reverse.dropWhile jsTrimWs).reverse

/-- Model of `String.prototype.trim`. -/
def jsTrimString (s : String) : String :=
  String.mk (jsTrimChars s.data)

/-- Model of `String.prototype.indexOf` for a single character: index of the
first occurrence, if any. -/
def charsIndexOf : List Char → Char → Option Nat
  | [], _ => none
  | c :: cs, t => if c == t then some 0 else (charsIndexOf cs t).map (· + 1)

/-- Model of `String.prototype.lastIndexOf` for a single character. -/
def charsLastIndexOf (cs : List Char) (t : Char) : Option Nat :=
  (charsIndexOf cs.reverse t).map (fun i => cs.length - 1 - i)

/-- JavaScript truthiness of a `string | null` result: `null` and the empty
string are falsy.  Models `if (found) return found;`. -/
def optTruthy : Option String → Option String
  | some s => if s == "" then none else some s
  | none => none

/-- Field access `data.k` returning the value only when it is a truthy
string, modelling `data.k && typeof data.k === 'string'`.  Object fields
produced by `JSON.parse` have unique keys, so first-binding lookup agrees
with JavaScript property access. -/
def getFieldStr (fields : List (String × Json)) (k : String) : Option String :=
  match fields.lookup k with
  | some (.str s) => if s == "" then none else some s
  | _ => none

/-- Step 1 of `findResponseText` (src/services/orionService.ts:15-23): the
direct check of the recognized reply fields on the current value, in the
source's priority order. -/
def matchHere : Json → Option String
  | .obj fields =>
    match getFieldStr fields "text_response" with
    | some s => some s
    | none =>
      match getFieldStr fields "output" with
      | some s => some s
      | none =>
        match getFieldStr fields "response" with
        | some s => some s
        | none =>
          match getFieldStr fields "message" with
          | some s => some s
          | none => getFieldStr fields "content"
  | _ => none

/-- First truthy result of `f` over a list, modelling the `for … of` loop
`const found = f(item); if (found) return found;`. -/
def firstTruthy (f : Json → Option String) : List Json → Option String
  | [] => none
  | v :: vs =>
    match optTruthy (f v) with
    | some s => some s
    | none => firstTruthy f vs

/-- First truthy result of `f` over the values of an object, modelling the
`for (const key in data)` loop of step 4. -/
def firstTruthyField (f : Json → Option String) : List (String × Json) → Option String
  | [] => none
  | (_, v) :: fs =>
    match optTruthy (f v) with
    | some s => some s
    | none => firstTruthyField f fs

/-- Fuel-indexed transliteration of `findResponseText`
(src/services/orionService.ts:12-87).  Fuel decreases on every recursive
call; `Json.size` of the argument is always sufficient fuel (proved below),
so `findResponseText` below is fuel-independent. -/
def findFuel : Nat → Json → Option String
  | 0, _ => none
  | n + 1, data =>
    if jsFalsy data then none
    else
      match matchHere data with
      | some s => some s
      | none =>
        match data with
        | .str s =>
          let trimmed := jsTrimChars s.data
          if trimmed.contains '\x7b' && trimmed.contains '\x7d' then
            match
              (match jsonParseChars trimmed with
               | some parsed => optTruthy (findFuel n parsed)
               | none => none) with
            | some t => some t
            | none =>
              match charsIndexOf trimmed '\x7b', charsLastIndexOf trimmed '\x7d' with
              | some firstBrace, some lastBrace =>
                if firstBrace < lastBrace then
                  let potentialJson := (trimmed.drop firstBrace).take (lastBrace + 1 - firstBrace)
                  if potentialJson ≠ trimmed then
                    match jsonParseChars potentialJson with
                    | some parsedDeep => optTruthy (findFuel n parsedDeep)
                    | none => none
                  else none
                else none
              | _, _ => none
          else none
        | .arr items => firstTruthy (findFuel n) items
        | .obj fields => firstTruthyField (findFuel n) fields
        | _ => none

/-- The response-text extractor `findResponseText` of
src/services/orionService.ts, evaluated with sufficient fuel. -/
def findResponseText (data : Json) : Option String :=
  findFuel (Json.size data) data

/-! ## The send operation (src/services/orionService.ts, `sendMessageToOrion`) -/

/-- Message role (types.ts). -/
inductive Role where
  | user : Role
  | assistant : Role
  deriving DecidableEq

/-- A chat message (types.ts `Message`).  The timestamp is modelled as a
number (epoch milliseconds). -/
structure Message where
  id : String
  role : Role
  content : String
  timestamp : Nat
  isLiked : Option Bool
  isDisliked : Option Bool
  deriving DecidableEq

/-- A chat session (types.ts `ChatSession`). -/
structure ChatSession where
  id : String
  title : String
  messages : List Message
  updatedAt : Nat
  deriving DecidableEq

/-- UI language (types.ts `Language`; named `AppLanguage` here because
Mathlib already declares `Language`). -/
inductive AppLanguage where
  | zh : AppLanguage
  | en : AppLanguage
  deriving DecidableEq

/-- The fixed start-of-conversation marker used when no previous messages
exist (orionService.ts:103). -/
def startOfConversationMarker : String := "当前是对话的开始。"

/-- The role label used in the context summary: `User` or `Orion`. -/
def roleLabel (r : Role) : String :=
  match r with
  | .user => "User"
  | .assistant => "Orion"

/-- The `memory_context` construction of `sendMessageToOrion`
(orionService.ts:96-103): drop history messages whose content equals the
text being sent; if the remainder is non-empty, drop blank messages, keep
the last 10 and join as role-labelled lines, otherwise use the fixed
marker. -/
def buildMemoryContext (text : String) (history : List Message) : String :=
  let previousMessages := history.filter (fun m => m.content ≠ text)
  if previousMessages.length > 0 then
    let nonBlank := previousMessages.filter (fun m => jsTrimString m.content ≠ "")
    let lastTen := nonBlank.drop (nonBlank.length - 10)
    String.intercalate "\n" (lastTen.map (fun m => roleLabel m.role ++ ": " ++ m.content))
  else startOfConversationMarker

/-- Truthiness of the `jsonResult` variable (`any`, `null` when parsing
failed): `!jsonResult` is true when parsing failed or produced a falsy
value. -/
def jsonTruthy : Option Json → Bool
  | some j => !jsFalsy j
  | none => false

/-- The fixed placeholder for a successful response with no decodable
content (orionService.ts:199). -/
def undecodableMsg : String := "Orion 收到信号，但无法解码内容 (格式解析错误)。"

/-- The fixed 404 error message (orionService.ts:174). -/
def endpoint404Msg : String :=
  "连接地址错误 (404)。如果您使用的是测试 URL，请确保 N8N 中已点击'Execute'，或切换到生产 URL。"

/-- The timeout message returned for an `AbortError` (orionService.ts:205). -/
def timeoutMsg : String := "Orion 思考超时了 (请检查 N8N 是否卡住)。"

/-- The connection-lost message returned for a `TypeError`
(orionService.ts:206). -/
def connectionLostMsg : String := "网络连接似乎断开了。"

mutual

/-- Model of JavaScript `String(v)` coercion on JSON values, as applied by
the `Error` constructor to `jsonResult?.message`. -/
def jsToDisplayString : Json → String
  | .null => "null"
  | .bool true => "true"
  | .bool false => "false"
  | .num n => toString n
  | .str s => s
  | .arr items => jsToDisplayItems items
  | .obj _ => "[object Object]"

/-- `Array.prototype.toString`: elements joined with commas, `null`
rendering as the empty string. -/
def jsToDisplayItems : List Json → String
  | [] => ""
  | [v] => match v with
           | .null => ""
           | _ => jsToDisplayString v
  | v :: vs =>
    (match v with
     | .null => ""
     | _ => jsToDisplayString v) ++ "," ++ jsToDisplayItems vs

end

/-- The message of the error thrown for a non-ok, non-404 response:
`jsonResult?.message || "连接不稳定 (status)"` (orionService.ts:176). -/
def serviceErrorMsg (jsonResult : Option Json) (status : Nat) : String :=
  let fallback := "连接不稳定 (" ++ toString status ++ ")"
  match jsonResult with
  | some (.obj fields) =>
    match fields.lookup "message" with
    | some v => if jsFalsy v then fallback else jsToDisplayString v
    | none => fallback
  | _ => fallback

/-- Substring test, modelling `String.prototype.includes`. -/
def charsHasInfix (needle : List Char) : List Char → Bool
  | [] => needle.isEmpty
  | c :: cs => needle.isPrefixOf (c :: cs) || charsHasInfix needle cs

/-- Model of `String.prototype.includes`. -/
def jsIncludes (hay needle : String) : Bool :=
  charsHasInfix needle.data hay.data

/-- Outcome of `sendMessageToOrion`: the promise resolves to a string, or
rejects with an error (name and display message). -/
inductive SendOutcome where
  | resolved (s : String) : SendOutcome
  | rejected (errName : String) (errMsg : String) : SendOutcome
  deriving DecidableEq

/-- The outer `catch` clause of `sendMessageToOrion` (orionService.ts:201-210)
applied to a thrown error. -/
def catchClause (errName errMsg : String) : SendOutcome :=
  if errName == "AbortError" then .resolved timeoutMsg
  else if errName == "TypeError" then .resolved connectionLostMsg
  else if jsIncludes errMsg "404" then .resolved errMsg
  else .rejected errName errMsg

/-- The successful-response branch of `sendMessageToOrion`
(orionService.ts:182-199): extractor result if the parsed body is truthy
and yields one; otherwise the raw text when non-blank and `jsonResult` is
falsy; otherwise the fixed placeholder. -/
def processOkBody (textResult : String) : String :=
  let jsonResult := jsonParseStr textResult
  match
    (if jsonTruthy jsonResult then
       match jsonResult with
       | some j => optTruthy (findResponseText j)
       | none => none
     else none) with
  | some foundText => foundText
  | none =>
    if textResult ≠ "" && jsTrimString textResult ≠ "" && !jsonTruthy jsonResult
    then textResult
    else undecodableMsg

/-- The response-handling phase of `sendMessageToOrion` (orionService.ts:
160-210), from `response.text()` onwards, as a function of the HTTP status
and raw body text.  Thrown errors (name `"Error"`) flow into the outer
`catch`. -/
def handleOrionResponse (status : Nat) (body : String) : SendOutcome :=
  let jsonResult := jsonParseStr body
  if !(200 ≤ status && status ≤ 299) then
    if status == 404 then catchClause "Error" endpoint404Msg
    else catchClause "Error" (serviceErrorMsg jsonResult status)
  else .resolved (processOkBody body)

/-! ## The session store (`App` component, src/sw.js second document) -/

/-- The placeholder titles used at session creation. -/
def placeholderTitleZh : String := "✨ 新对话"

/-- The English placeholder title. -/
def placeholderTitleEn : String := "✨ New Chat"

/-- Whether a title is one of the two creation placeholders. -/
def isPlaceholderTitle (t : String) : Bool :=
  t == placeholderTitleZh || t == placeholderTitleEn

/-- The session-store state held by the `App` component: the session
collection and the current selection. -/
structure AppState where
  sessions : List ChatSession
  currentSessionId : Option String
  deriving DecidableEq

/-- `createSessionObject(lang)` of the `App` component: a fresh session with
an id derived from `Date.now()`, a placeholder title, an empty message log
and a fresh timestamp. -/
def createSessionObject (lang : AppLanguage) (now : Nat) : ChatSession :=
  { id := toString now
    title := if lang = .zh then placeholderTitleZh else placeholderTitleEn
    messages := []
    updatedAt := now }

/-- `createNewSession` of the `App` component: prepend a fresh session and
select it. -/
def createNewSession (lang : AppLanguage) (now : Nat) (st : AppState) : AppState :=
  let newSession := createSessionObject lang now
  { sessions := newSession :: st.sessions, currentSessionId := some newSession.id }

/-- Model of `String.prototype.slice(0, n)`. -/
def jsSliceTo (s : String) (n : Nat) : String :=
  String.mk (s.data.take n)

/-- The title derived from a first message: its content truncated to 20
characters, with an ellipsis marker when longer (sw.js App component,
`updateCurrentMessages`). -/
def derivedTitle (content : String) : String :=
  jsSliceTo content 20 ++ (if content.length > 20 then "..." else "")

/-- The per-session update applied by `updateCurrentMessages` to the session
matching the current id: replace the message log, refresh the timestamp,
and re-derive the title when the old title is a placeholder or the old
message log was empty. -/
def updateSessionEntry (cid : String) (newMessages : List Message) (now : Nat)
    (session : ChatSession) : ChatSession :=
  if session.id == cid then
    let isDefaultTitle :=
      session.title == placeholderTitleZh || session.title == placeholderTitleEn ||
      session.messages.length == 0
    let newTitle :=
      match newMessages with
      | firstMsg :: _ =>
        if isDefaultTitle then derivedTitle firstMsg.content else session.title
      | [] => session.title
    { session with messages := newMessages, title := newTitle, updatedAt := now }
  else session

/-- `updateCurrentMessages(newMessages)` of the `App` component: a no-op
when no session is current, otherwise the map of `updateSessionEntry` over
the collection. -/
def updateCurrentMessages (newMessages : List Message) (now : Nat) (st : AppState) : AppState :=
  match st.currentSessionId with
  | none => st
  | some cid =>
    { st with sessions := st.sessions.map (updateSessionEntry cid newMessages now) }

/-- `deleteSession(e, id)` of the `App` component: filter the session out;
if nothing remains, create a fresh session (which becomes current); if the
deleted session was current, select the first remaining one. -/
def deleteSession (id : String) (lang : AppLanguage) (now : Nat) (st : AppState) : AppState :=
  let newSessions := st.sessions.filter (fun s => s.id ≠ id)
  match newSessions with
  | [] => createNewSession lang now { st with sessions := [] }
  | first :: rest =>
    if st.currentSessionId == some id then
      { sessions := first :: rest, currentSessionId := some first.id }
    else
      { st with sessions := first :: rest }

/-! ## Persistence (`App` initialization and auto-save effects) -/

/-- Lowercase hexadecimal digit. -/
def hexDigitChar (n : Nat) : Char :=
  if n < 10 then Char.ofNat ('0'.toNat + n) else Char.ofNat ('a'.toNat + (n - 10))

/-- `JSON.stringify` escaping of one string character. -/
def escapeJsonChar (c : Char) : List Char :=
  if c == '"' then ['\\', '"']
  else if c == '\\' then ['\\', '\\']
  else if c == '\n' then ['\\', 'n']
  else if c == '\r' then ['\\', 'r']
  else if c == '\t' then ['\\', 't']
  else if c == '\x08' then ['\\', 'b']
  else if c == '\x0c' then ['\\', 'f']
  else if c.toNat < 32 then
    ['\\', 'u', '0', '0', hexDigitChar (c.toNat / 16), hexDigitChar (c.toNat % 16)]
  else [c]

/-- `JSON.stringify` escaping of a whole string body. -/
def escapeChars : List Char → List Char
  | [] => []
  | c :: cs => escapeJsonChar c ++ escapeChars cs

/-- Decimal digits of a natural number. -/
def natToChars (n : Nat) : List Char :=
  if _h : n < 10 then [Char.ofNat ('0'.toNat + n)]
  else natToChars (n / 10) ++ [Char.ofNat ('0'.toNat + n % 10)]
decreasing_by exact Nat.div_lt_self (by omega) (by omega)

/-- Decimal rendering of an integer, as printed by `JSON.stringify`. -/
def intToChars (n : Int) : List Char :=
  if n < 0 then '-' :: natToChars n.natAbs else natToChars n.toNat

mutual

/-- Model of `JSON.stringify` (no spacing), at the character level. -/
def jsonStringifyChars : Json → List Char
  | .null => 'n' :: ['u', 'l', 'l']
  | .bool true => 't' :: ['r', 'u', 'e']
  | .bool false => 'f' :: ['a', 'l', 's', 'e']
  | .num n => intToChars n
  | .str s => '"' :: (escapeChars s.data ++ ['"'])
  | .arr [] => ['\x5b', '\x5d']
  | .arr (v :: vs) => '\x5b' :: (jsonStringifyChars v ++ (stringifyMoreItems vs ++ ['\x5d']))
  | .obj [] => ['\x7b', '\x7d']
  | .obj ((k, v) :: fs) =>
    '\x7b' :: ('"' :: (escapeChars k.data ++ ('"' :: ':' ::
      (jsonStringifyChars v ++ (stringifyMoreFields fs ++ ['\x7d'])))))

/-- Remaining array elements, each preceded by a comma. -/
def stringifyMoreItems : List Json → List Char
  | [] => []
  | v :: vs => ',' :: (jsonStringifyChars v ++ stringifyMoreItems vs)

/-- Remaining object fields, each preceded by a comma. -/
def stringifyMoreFields : List (String × Json) → List Char
  | [] => []
  | (k, v) :: fs =>
    ',' :: ('"' :: (escapeChars k.data ++ ('"' :: ':' ::
      (jsonStringifyChars v ++ stringifyMoreFields fs))))

end

/-- Model of `JSON.stringify` on strings. -/
def jsonStringify (v : Json) : String :=
  String.mk (jsonStringifyChars v)

/-- The string stored for a role by `JSON.stringify`. -/
def roleString (r : Role) : String :=
  match r with
  | .user => "user"
  | .assistant => "assistant"

/-- The JSON document `JSON.stringify` produces for a `Message` (fields in
declaration order; absent optional feedback flags are omitted, as
`JSON.stringify` omits `undefined` properties). -/
def encodeMessage (m : Message) : Json :=
  Json.obj
    ([("id", Json.str m.id), ("role", Json.str (roleString m.role)),
      ("content", Json.str m.content), ("timestamp", Json.num m.timestamp)] ++
      (match m.isLiked with
       | some b => [("isLiked", Json.bool b)]
       | none => []) ++
      (match m.isDisliked with
       | some b => [("isDisliked", Json.bool b)]
       | none => []))

/-- The JSON document `JSON.stringify` produces for a `ChatSession`. -/
def encodeSession (s : ChatSession) : Json :=
  Json.obj
    [("id", Json.str s.id), ("title", Json.str s.title),
     ("messages", Json.arr (s.messages.map encodeMessage)),
     ("updatedAt", Json.num s.updatedAt)]

/-- The JSON document `JSON.stringify` produces for the session collection. -/
def encodeSessions (ss : List ChatSession) : Json :=
  Json.arr (ss.map encodeSession)

/-- Read a `Role` back from its JSON form. -/
def decodeRole : Json → Option Role
  | .str s => if s = "user" then some .user
              else if s = "assistant" then some .assistant
              else none
  | _ => none

/-- Read an optional feedback flag back from an object field list. -/
def decodeOptFlag (fields : List (String × Json)) (k : String) : Option (Option Bool) :=
  match fields.lookup k with
  | none => some none
  | some (.bool b) => some (some b)
  | some _ => none

/-- Read a `Message` back from its JSON form.  The running code uses the
parsed value without validation; this reader makes the equivalence of the
reloaded data explicit. -/
def decodeMessage : Json → Option Message
  | .obj fields => do
    let id ← match fields.lookup "id" with
             | some (.str s) => some s
             | _ => none
    let role ← match fields.lookup "role" with
               | some v => decodeRole v
               | none => none
    let content ← match fields.lookup "content" with
                  | some (.str s) => some s
                  | _ => none
    let timestamp ← match fields.lookup "timestamp" with
                    | some (.num t) => if t < 0 then none else some t.toNat
                    | _ => none
    let isLiked ← decodeOptFlag fields "isLiked"
    let isDisliked ← decodeOptFlag fields "isDisliked"
    some { id := id, role := role, content := content, timestamp := timestamp,
           isLiked := isLiked, isDisliked := isDisliked }
  | _ => none

/-- Read a message list back from its JSON form. -/
def decodeMessages : List Json → Option (List Message)
  | [] => some []
  | v :: vs => do
    let m ← decodeMessage v
    let ms ← decodeMessages vs
    some (m :: ms)

/-- Read a `ChatSession` back from its JSON form. -/
def decodeSession : Json → Option ChatSession
  | .obj fields => do
    let id ← match fields.lookup "id" with
             | some (.str s) => some s
             | _ => none
    let title ← match fields.lookup "title" with
                | some (.str s) => some s
                | _ => none
    let messages ← match fields.lookup "messages" with
                   | some (.arr items) => decodeMessages items
                   | _ => none
    let updatedAt ← match fields.lookup "updatedAt" with
                    | some (.num t) => if t < 0 then none else some t.toNat
                    | _ => none
    some { id := id, title := title, messages := messages, updatedAt := updatedAt }
  | _ => none

/-- Read a session list back from its JSON form. -/
def decodeSessionList : List Json → Option (List ChatSession)
  | [] => some []
  | v :: vs => do
    let s ← decodeSession v
    let ss ← decodeSessionList vs
    some (s :: ss)

/-- Read the stored session collection back from its JSON form; the
document must be an array, mirroring the `Array.isArray(parsed)` check. -/
def decodeSessions : Json → Option (List ChatSession)
  | .arr items => decodeSessionList items
  | _ => none

/-- The initialization effect of the `App` component (sw.js second
document): read the stored collection and current id back, fall back to the
first session when the remembered id is absent or falsy, and create a fresh
session when nothing loads.  `decodeSessions` models the untyped use of the
parsed array by the running code. -/
def initSessions (savedSessions savedSessionId : Option String) (now : Nat) : AppState :=
  let loadedSessions : List ChatSession :=
    match savedSessions with
    | some s =>
      match jsonParseStr s with
      | some parsed =>
        match decodeSessions parsed with
        | some ss => ss
        | none => []
      | none => []
    | none => []
  match loadedSessions with
  | [] =>
    let newSession := createSessionObject .zh now
    { sessions := [newSession], currentSessionId := some newSession.id }
  | first :: rest =>
    let current :=
      match savedSessionId with
      | some sid =>
        if sid ≠ "" && (first :: rest).any (fun s => s.id == sid) then sid else first.id
      | none => first.id
    { sessions := first :: rest, currentSessionId := some current }

/-! ## Specification-side definitions

Definitions written from the specification's words, used to state the
claims against the transliterated code above. -/

/-- The recognized reply-field names, in the priority order stated by the
specification. -/
def recognizedFields : List String :=
  ["text_response", "output", "response", "message", "content"]

/-- Specification reading of step 1: the non-empty string held by the
highest-priority recognized field of an object. -/
def specPriorityMatch (fields : List (String × Json)) : Option String :=
  recognizedFields.findSome? (fun k => getFieldStr fields k)

/-- Specification predicate for claim C2: no recognized field holding a
non-empty string occurs anywhere in the value — neither on the value
itself, nor in any array element or object field value, nor inside any
string the extractor would parse as embedded JSON.  Fuel-indexed like the
extractor. -/
def noMatchAnywhere : Nat → Json → Bool
  | 0, _ => false
  | n + 1, v =>
    (matchHere v).isNone &&
    (match v with
     | .str s =>
       let trimmed := jsTrimChars s.data
       if trimmed.contains '\x7b' && trimmed.contains '\x7d' then
         (match jsonParseChars trimmed with
          | some parsed => noMatchAnywhere n parsed
          | none => true) &&
         (match charsIndexOf trimmed '\x7b', charsLastIndexOf trimmed '\x7d' with
          | some firstBrace, some lastBrace =>
            if firstBrace < lastBrace then
              let potentialJson := (trimmed.drop firstBrace).take (lastBrace + 1 - firstBrace)
              if potentialJson ≠ trimmed then
                match jsonParseChars potentialJson with
                | some parsedDeep => noMatchAnywhere n parsedDeep
                | none => true
              else true
            else true
          | _, _ => true)
       else true
     | .arr items => items.all (noMatchAnywhere n)
     | .obj fields => fields.all (fun p => noMatchAnywhere n p.2)
     | _ => true)

/-- The bounded context set of claim C3: history messages whose content
differs from the text being sent and is non-blank, restricted to the last
ten. -/
def boundedContextSet (text : String) (history : List Message) : List Message :=
  let qualifying :=
    (history.filter (fun m => m.content ≠ text)).filter
      (fun m => jsTrimString m.content ≠ "")
  qualifying.drop (qualifying.length - 10)

/-- One formatted context line. -/
def contextLine (m : Message) : String :=
  roleLabel m.role ++ ": " ++ m.content

/-- Specification reading of the successful-response branch, as amended by
claim C6: the extractor's non-empty result when the body parses to a truthy
JSON value; otherwise the raw body verbatim when it is non-empty, non-blank
and the parse produced nothing truthy; otherwise the fixed placeholder. -/
def specProcessOk (textResult : String) : String :=
  match jsonParseStr textResult with
  | some j =>
    if jsFalsy j = false then
      match findResponseText j with
      | some t => if t ≠ "" then t else undecodableMsg
      | none => undecodableMsg
    else if textResult ≠ "" ∧ jsTrimString textResult ≠ "" then textResult
    else undecodableMsg
  | none =>
    if textResult ≠ "" ∧ jsTrimString textResult ≠ "" then textResult
    else undecodableMsg

/-! ## Basic lemmas -/

theorem Json.size_pos : ∀ v : Json, 1 ≤ Json.size v := by
  intro v
  cases v <;> simp [Json.size]

theorem Json.size_le_sizeItems {v : Json} : ∀ {items : List Json}, v ∈ items →
    Json.size v ≤ Json.sizeItems items := by
  intro items
  induction items with
  | nil => intro h; cases h
  | cons x xs ih =>
    intro h
    rcases List.mem_cons.mp h with h | h
    · subst h; simp [Json.sizeItems]
    · have := ih h
      simp [Json.sizeItems]
      omega

theorem Json.size_le_sizeFields {p : String × Json} : ∀ {fields : List (String × Json)},
    p ∈ fields → Json.size p.2 ≤ Json.sizeFields fields := by
  intro fields
  induction fields with
  | nil => intro h; cases h
  | cons x xs ih =>
    intro h
    rcases List.mem_cons.mp h with h | h
    · subst h
      rcases p with ⟨k, v⟩
      simp [Json.sizeFields]
      omega
    · have := ih h
      rcases x with ⟨k, v⟩
      simp [Json.sizeFields]
      omega

theorem skipWs_length : ∀ cs : List Char, (skipWs cs).length ≤ cs.length := by
  intro cs
  induction cs with
  | nil => simp [skipWs]
  | cons c cs ih =>
    simp only [skipWs]
    split
    · calc (skipWs cs).length ≤ cs.length := ih
        _ ≤ (c :: cs).length := by simp
    · simp

theorem jsTrimChars_length (cs : List Char) : (jsTrimChars cs).length ≤ cs.length := by
  unfold jsTrimChars
  calc ((cs.dropWhile jsTrimWs).reverse.dropWhile jsTrimWs).reverse.length
      = ((cs.dropWhile jsTrimWs).reverse.dropWhile jsTrimWs).length := List.length_reverse _
    _ ≤ (cs.dropWhile jsTrimWs).reverse.length := (List.dropWhile_sublist _).length_le
    _ = (cs.dropWhile jsTrimWs).length := List.length_reverse _
    _ ≤ cs.length := (List.dropWhile_sublist _).length_le

theorem stripLit_length : ∀ (lit cs rest : List Char), stripLit lit cs = some rest →
    rest.length ≤ cs.length := by
  intro lit
  induction lit with
  | nil => intro cs rest h; simp [stripLit] at h; subst h; exact Nat.le_refl _
  | cons l ls ih =>
    intro cs rest h
    cases cs with
    | nil => simp [stripLit] at h
    | cons c cs' =>
      simp only [stripLit] at h
      split at h
      · exact Nat.le_trans (ih cs' rest h) (by simp)
      · cases h

theorem parseStringBody_length : ∀ cs content rest,
    parseStringBody cs = some (content, rest) →
    content.length + rest.length + 1 ≤ cs.length := by
  intro cs
  induction cs using parseStringBody.induct <;>
    intro content rest h <;>
    simp only [parseStringBody] at h <;>
    first
    | (cases h; done)
    | (obtain ⟨rfl, rfl⟩ := h; simp)
    | (simp [*] at h; done)
    | (rename_i x ih
       simp [*] at h
       obtain ⟨h1, h2⟩ := h
       subst h1; subst h2
       have hb := ih _ _ x
       simp at hb ⊢
       omega)

theorem takeDigits_length : ∀ cs ds rest, takeDigits cs = (ds, rest) →
    ds.length + rest.length = cs.length := by
  intro cs
  induction cs with
  | nil => intro ds rest h; simp [takeDigits] at h; obtain ⟨rfl, rfl⟩ := h; simp
  | cons c cs ih =>
    intro ds rest h
    simp only [takeDigits] at h
    split at h
    · rcases hrec : takeDigits cs with ⟨ds', rest'⟩
      rw [hrec] at h
      obtain ⟨rfl, rfl⟩ := Prod.mk.injEq .. ▸ h
      have := ih _ _ hrec
      simp
      omega
    · obtain ⟨rfl, rfl⟩ := Prod.mk.injEq .. ▸ h
      simp

theorem expectDigits_length : ∀ cs rest, expectDigits cs = some rest →
    rest.length ≤ cs.length := by
  intro cs rest h
  unfold expectDigits at h
  rcases hd : takeDigits cs with ⟨ds, rest'⟩
  rw [hd] at h
  dsimp only at h
  split_ifs at h
  simp at h
  subst h
  have := takeDigits_length _ _ _ hd
  omega

theorem skipFrac_length : ∀ cs rest, skipFrac cs = some rest →
    rest.length ≤ cs.length := by
  intro cs rest h
  rw [skipFrac.eq_def] at h
  split at h
  · have := expectDigits_length _ _ h
    simp
    omega
  · simp at h; subst h; exact Nat.le_refl _

theorem skipExp_length : ∀ cs rest, skipExp cs = some rest →
    rest.length ≤ cs.length := by
  intro cs rest h
  rw [skipExp.eq_def] at h
  split at h <;>
    first
    | (have hlen := expectDigits_length _ _ h; simp; omega)
    | (simp at h; subst h; exact Nat.le_refl _)

theorem parseIntTail_size : ∀ neg cs2 v rest, parseIntTail neg cs2 = some (v, rest) →
    Json.size v + rest.length ≤ cs2.length := by
  intro neg cs2 v rest h
  unfold parseIntTail at h
  rcases hd : takeDigits cs2 with ⟨ds, rest'⟩
  cases ds with
  | nil => rw [hd] at h; simp at h
  | cons d ds' =>
    rw [hd] at h
    simp only [List.isEmpty_cons, if_false, Bool.false_eq_true] at h
    rcases hf : skipFrac rest' with _ | rest2 <;> rw [hf] at h
    · simp at h
    · simp only [] at h
      rcases he : skipExp rest2 with _ | rest3 <;> rw [he] at h
      · simp at h
      · simp at h
        obtain ⟨rfl, rfl⟩ := h
        have h1 := takeDigits_length _ _ _ hd
        have h2 := skipFrac_length _ _ hf
        have h3 := skipExp_length _ _ he
        simp [Json.size] at *
        omega

theorem parseNumber_size : ∀ cs v rest, parseNumber cs = some (v, rest) →
    Json.size v + rest.length ≤ cs.length := by
  intro cs v rest h
  rw [parseNumber.eq_def] at h
  split at h
  · have := parseIntTail_size _ _ _ _ h
    simp
    omega
  · exact parseIntTail_size _ _ _ _ h

theorem skipWs_eq_length {cs ds : List Char} (h : skipWs cs = ds) :
    ds.length ≤ cs.length := h ▸ skipWs_length cs

set_option maxHeartbeats 2000000 in
theorem parse_size : ∀ fuel : Nat,
    (∀ cs v rest, parseVal fuel cs = some (v, rest) →
      Json.size v + rest.length ≤ cs.length) ∧
    (∀ cs vs rest, parseItems fuel cs = some (vs, rest) →
      Json.sizeItems vs + rest.length + 1 ≤ cs.length) ∧
    (∀ cs fs rest, parseFields fuel cs = some (fs, rest) →
      Json.sizeFields fs + rest.length + 1 ≤ cs.length) := by
  intro fuel
  induction fuel with
  | zero =>
    refine ⟨?_, ?_, ?_⟩ <;> intro cs a rest h <;>
      simp [parseVal, parseItems, parseFields] at h
  | succ n ih =>
    obtain ⟨ihV, ihI, ihF⟩ := ih
    refine ⟨?_, ?_, ?_⟩
    · -- parseVal
      intro cs v rest h
      simp only [parseVal] at h
      rcases hsw : skipWs cs with _ | ⟨c, cs'⟩ <;> rw [hsw] at h
      · cases h
      · have hlen := skipWs_eq_length hsw
        simp only [List.length_cons] at hlen
        dsimp only at h
        split_ifs at h with hn ht hf hq ha hb
        · rcases hsl : stripLit ['u', 'l', 'l'] cs' with _ | rest0 <;> rw [hsl] at h
          · cases h
          · simp at h
            obtain ⟨rfl, rfl⟩ := h
            have := stripLit_length _ _ _ hsl
            simp [Json.size]
            omega
        · rcases hsl : stripLit ['r', 'u', 'e'] cs' with _ | rest0 <;> rw [hsl] at h
          · cases h
          · simp at h
            obtain ⟨rfl, rfl⟩ := h
            have := stripLit_length _ _ _ hsl
            simp [Json.size]
            omega
        · rcases hsl : stripLit ['a', 'l', 's', 'e'] cs' with _ | rest0 <;> rw [hsl] at h
          · cases h
          · simp at h
            obtain ⟨rfl, rfl⟩ := h
            have := stripLit_length _ _ _ hsl
            simp [Json.size]
            omega
        · rcases hsb : parseStringBody cs' with _ | ⟨content, rest0⟩ <;> rw [hsb] at h
          · cases h
          · simp at h
            obtain ⟨rfl, rfl⟩ := h
            have := parseStringBody_length _ _ _ hsb
            have hmk : (String.mk content).length = content.length := rfl
            simp [Json.size, hmk]
            omega
        · -- '[' branch
          split at h
          · rename_i rest0 heq
            simp at h
            obtain ⟨rfl, rfl⟩ := h
            have := skipWs_eq_length heq
            simp at this
            simp [Json.size, Json.sizeItems]
            omega
          · rcases hpi : parseItems n cs' with _ | ⟨vs0, rest0⟩ <;> rw [hpi] at h
            · cases h
            · simp at h
              obtain ⟨rfl, rfl⟩ := h
              have := ihI _ _ _ hpi
              simp [Json.size]
              omega
        · -- '{' branch
          split at h
          · rename_i rest0 heq
            simp at h
            obtain ⟨rfl, rfl⟩ := h
            have := skipWs_eq_length heq
            simp at this
            simp [Json.size, Json.sizeFields]
            omega
          · rcases hpf : parseFields n cs' with _ | ⟨fs0, rest0⟩ <;> rw [hpf] at h
            · cases h
            · simp at h
              obtain ⟨rfl, rfl⟩ := h
              have := ihF _ _ _ hpf
              simp [Json.size]
              omega
        · -- number branch
          have := parseNumber_size _ _ _ h
          simp at this
          omega
    · -- parseItems
      intro cs vs rest h
      simp only [parseItems] at h
      rcases hv : parseVal n cs with _ | ⟨v0, rest0⟩ <;> rw [hv] at h
      · cases h
      · simp only [] at h
        split at h
        · -- ',' case
          rename_i rest2 heq
          rcases hpi : parseItems n rest2 with _ | ⟨vs0, rest3⟩ <;> rw [hpi] at h
          · cases h
          · simp at h
            obtain ⟨rfl, rfl⟩ := h
            have hA := ihV _ _ _ hv
            have hB := ihI _ _ _ hpi
            have hC := skipWs_eq_length heq
            simp at hC
            simp [Json.sizeItems]
            omega
        · -- ']' case
          rename_i rest2 heq
          simp at h
          obtain ⟨rfl, rfl⟩ := h
          have hA := ihV _ _ _ hv
          have hC := skipWs_eq_length heq
          simp at hC
          simp [Json.sizeItems]
          omega
        · cases h
    · -- parseFields
      intro cs fs rest h
      simp only [parseFields] at h
      split at h
      · rename_i cs' heq
        have hl0 := skipWs_eq_length heq
        simp at hl0
        rcases hsb : parseStringBody cs' with _ | ⟨key, rest0⟩ <;> rw [hsb] at h
        · cases h
        · simp only [] at h
          split at h
          · rename_i rest2 heq2
            have hl2 := skipWs_eq_length heq2
            simp at hl2
            rcases hv : parseVal n rest2 with _ | ⟨v0, rest3⟩ <;> rw [hv] at h
            · cases h
            · simp only [] at h
              split at h
              · -- ',' case
                rename_i rest4 heq3
                have hl4 := skipWs_eq_length heq3
                simp at hl4
                rcases hpf : parseFields n rest4 with _ | ⟨fs0, rest5⟩ <;> rw [hpf] at h
                · cases h
                · simp at h
                  obtain ⟨rfl, rfl⟩ := h
                  have hA := parseStringBody_length _ _ _ hsb
                  have hB := ihV _ _ _ hv
                  have hC := ihF _ _ _ hpf
                  have hmk : (String.mk key).length = key.length := rfl
                  simp [Json.sizeFields, hmk]
                  omega
              · -- '}' case
                rename_i rest4 heq3
                have hl4 := skipWs_eq_length heq3
                simp at hl4
                simp at h
                obtain ⟨rfl, rfl⟩ := h
                have hA := parseStringBody_length _ _ _ hsb
                have hB := ihV _ _ _ hv
                have hmk : (String.mk key).length = key.length := rfl
                simp [Json.sizeFields, hmk]
                omega
              · cases h
          · cases h
      · cases h

theorem jsonParseChars_size : ∀ cs v, jsonParseChars cs = some v →
    Json.size v ≤ cs.length := by
  intro cs v h
  unfold jsonParseChars at h
  rcases hp : parseVal (2 * cs.length + 2) cs with _ | ⟨v0, rest⟩ <;> rw [hp] at h
  · cases h
  · dsimp only at h
    split_ifs at h
    simp at h
    subst h
    have := (parse_size _).1 _ _ _ hp
    omega

/-- One-step unfolding of `findFuel` at positive fuel (definitional). -/
theorem findFuel_succ (n : Nat) (data : Json) :
    findFuel (n + 1) data =
      (if jsFalsy data then none
       else
         match matchHere data with
         | some s => some s
         | none =>
           match data with
           | .str s =>
             let trimmed := jsTrimChars s.data
             if trimmed.contains '\x7b' && trimmed.contains '\x7d' then
               match
                 (match jsonParseChars trimmed with
                  | some parsed => optTruthy (findFuel n parsed)
                  | none => none) with
               | some t => some t
               | none =>
                 match charsIndexOf trimmed '\x7b', charsLastIndexOf trimmed '\x7d' with
                 | some firstBrace, some lastBrace =>
                   if firstBrace < lastBrace then
                     let potentialJson := (trimmed.drop firstBrace).take (lastBrace + 1 - firstBrace)
                     if potentialJson ≠ trimmed then
                       match jsonParseChars potentialJson with
                       | some parsedDeep => optTruthy (findFuel n parsedDeep)
                       | none => none
                     else none
                   else none
                 | _, _ => none
             else none
           | .arr items => firstTruthy (findFuel n) items
           | .obj fields => firstTruthyField (findFuel n) fields
           | _ => none) := rfl

theorem firstTruthy_congr {f g : Json → Option String} :
    ∀ {l : List Json}, (∀ v ∈ l, f v = g v) → firstTruthy f l = firstTruthy g l := by
  intro l
  induction l with
  | nil => intro _; rfl
  | cons x xs ih =>
    intro h
    simp only [firstTruthy]
    rw [h x (List.mem_cons_self x xs), ih (fun v hv => h v (List.mem_cons_of_mem _ hv))]

theorem firstTruthyField_congr {f g : Json → Option String} :
    ∀ {l : List (String × Json)}, (∀ p ∈ l, f p.2 = g p.2) →
    firstTruthyField f l = firstTruthyField g l := by
  intro l
  induction l with
  | nil => intro _; rfl
  | cons x xs ih =>
    intro h
    rcases x with ⟨k, v⟩
    simp only [firstTruthyField]
    rw [h ⟨k, v⟩ (List.mem_cons_self _ xs), ih (fun p hp => h p (List.mem_cons_of_mem _ hp))]

set_option maxHeartbeats 2000000 in
theorem findFuel_stable_aux : ∀ (k : Nat) (v : Json), Json.size v ≤ k →
    ∀ n m, Json.size v ≤ n → Json.size v ≤ m → findFuel n v = findFuel m v := by
  intro k
  induction k using Nat.strong_induction_on with
  | _ k IH =>
    intro v hvk n m hn hm
    have hpos := Json.size_pos v
    rcases n with _ | n'
    · omega
    rcases m with _ | m'
    · omega
    cases v with
    | null => rfl
    | bool b => cases b <;> rfl
    | num z => simp only [findFuel_succ]
    | str s =>
      have hslen : Json.size (Json.str s) = 1 + s.length := by simp [Json.size]
      have htrim : (jsTrimChars s.data).length ≤ s.length := jsTrimChars_length s.data
      have hA : (match jsonParseChars (jsTrimChars s.data) with
                 | some parsed => optTruthy (findFuel n' parsed)
                 | none => none) =
                (match jsonParseChars (jsTrimChars s.data) with
                 | some parsed => optTruthy (findFuel m' parsed)
                 | none => none) := by
        rcases hp : jsonParseChars (jsTrimChars s.data) with _ | parsed <;> simp only []
        have hsz : Json.size parsed ≤ s.length := by
          have := jsonParseChars_size _ _ hp
          omega
        rw [IH s.length (by omega) parsed hsz n' m' (by omega) (by omega)]
      have hB : (match charsIndexOf (jsTrimChars s.data) '\x7b',
                       charsLastIndexOf (jsTrimChars s.data) '\x7d' with
                 | some firstBrace, some lastBrace =>
                   if firstBrace < lastBrace then
                     if ((jsTrimChars s.data).drop firstBrace).take (lastBrace + 1 - firstBrace) ≠
                         jsTrimChars s.data then
                       match jsonParseChars
                           (((jsTrimChars s.data).drop firstBrace).take (lastBrace + 1 - firstBrace)) with
                       | some parsedDeep => optTruthy (findFuel n' parsedDeep)
                       | none => none
                     else none
                   else none
                 | _, _ => none) =
                (match charsIndexOf (jsTrimChars s.data) '\x7b',
                       charsLastIndexOf (jsTrimChars s.data) '\x7d' with
                 | some firstBrace, some lastBrace =>
                   if firstBrace < lastBrace then
                     if ((jsTrimChars s.data).drop firstBrace).take (lastBrace + 1 - firstBrace) ≠
                         jsTrimChars s.data then
                       match jsonParseChars
                           (((jsTrimChars s.data).drop firstBrace).take (lastBrace + 1 - firstBrace)) with
                       | some parsedDeep => optTruthy (findFuel m' parsedDeep)
                       | none => none
                     else none
                   else none
                 | _, _ => none) := by
        rcases hi : charsIndexOf (jsTrimChars s.data) '\x7b' with _ | fb <;>
          rcases hl : charsLastIndexOf (jsTrimChars s.data) '\x7d' with _ | lb <;>
          simp only []
        by_cases hfl : fb < lb
        · simp only [if_pos hfl]
          by_cases heq : ((jsTrimChars s.data).drop fb).take (lb + 1 - fb) = jsTrimChars s.data
          · simp [heq]
          · simp only [ne_eq, heq, not_false_eq_true, if_true]
            rcases hp2 : jsonParseChars (((jsTrimChars s.data).drop fb).take (lb + 1 - fb)) with _ | parsed2 <;>
              simp only []
            have hsz2 : Json.size parsed2 ≤ s.length := by
              have h1 := jsonParseChars_size _ _ hp2
              have h2 : ((((jsTrimChars s.data).drop fb).take (lb + 1 - fb))).length ≤
                  (jsTrimChars s.data).length := by
                calc ((((jsTrimChars s.data).drop fb).take (lb + 1 - fb))).length
                    ≤ ((jsTrimChars s.data).drop fb).length := by
                      simp [List.length_take]
                  _ ≤ (jsTrimChars s.data).length := by simp [List.length_drop]
              omega
            rw [IH s.length (by omega) parsed2 hsz2 n' m' (by omega) (by omega)]
        · simp [hfl]
      simp only [findFuel_succ]
      rw [hA, hB]
    | arr items =>
      simp only [findFuel_succ]
      have hsz : Json.size (Json.arr items) = 1 + Json.sizeItems items := by simp [Json.size]
      have hcg : ∀ w ∈ items, findFuel n' w = findFuel m' w := by
        intro w hw
        have hws := Json.size_le_sizeItems hw
        exact IH (Json.sizeItems items) (by omega) w (by omega) n' m' (by omega) (by omega)
      simp [matchHere, jsFalsy, firstTruthy_congr hcg]
    | obj fields =>
      simp only [findFuel_succ]
      have hsz : Json.size (Json.obj fields) = 1 + Json.sizeFields fields := by simp [Json.size]
      have hcg : ∀ p ∈ fields, findFuel n' p.2 = findFuel m' p.2 := by
        intro p hp
        have hws := Json.size_le_sizeFields hp
        exact IH (Json.sizeFields fields) (by omega) p.2 (by omega) n' m' (by omega) (by omega)
      rcases hmh : matchHere (Json.obj fields) with _ | s <;>
        simp [hmh, jsFalsy, firstTruthyField_congr hcg]

theorem findFuel_stable {v : Json} {n m : Nat} (hn : Json.size v ≤ n) (hm : Json.size v ≤ m) :
    findFuel n v = findFuel m v :=
  findFuel_stable_aux (Json.size v) v (Nat.le_refl _) n m hn hm

theorem findResponseText_eq_findFuel {v : Json} {n : Nat} (hn : Json.size v ≤ n) :
    findResponseText v = findFuel n v :=
  findFuel_stable (Nat.le_refl _) hn

theorem firstTruthy_none_of_all {f : Json → Option String} :
    ∀ {l : List Json}, (∀ v ∈ l, f v = none) → firstTruthy f l = none := by
  intro l
  induction l with
  | nil => intro _; rfl
  | cons x xs ih =>
    intro h
    simp only [firstTruthy, h x (List.mem_cons_self x xs), optTruthy]
    exact ih (fun v hv => h v (List.mem_cons_of_mem _ hv))

theorem firstTruthyField_none_of_all {f : Json → Option String} :
    ∀ {l : List (String × Json)}, (∀ p ∈ l, f p.2 = none) → firstTruthyField f l = none := by
  intro l
  induction l with
  | nil => intro _; rfl
  | cons x xs ih =>
    intro h
    rcases x with ⟨k, v⟩
    simp only [firstTruthyField, h ⟨k, v⟩ (List.mem_cons_self _ xs), optTruthy]
    exact ih (fun p hp => h p (List.mem_cons_of_mem _ hp))

set_option maxHeartbeats 1000000 in
theorem noMatchAnywhere_findFuel_none : ∀ n v, noMatchAnywhere n v = true →
    findFuel n v = none := by
  intro n
  induction n with
  | zero => intro v h; simp [noMatchAnywhere] at h
  | succ n ih =>
    intro v h
    simp only [noMatchAnywhere] at h
    rw [Bool.and_eq_true] at h
    obtain ⟨hmh, hrest⟩ := h
    rw [Option.isNone_iff_eq_none] at hmh
    rw [findFuel_succ]
    simp only [hmh]
    by_cases hf : jsFalsy v = true
    · simp [hf]
    · simp only [Bool.not_eq_true] at hf
      simp only [hf, Bool.false_eq_true, if_false]
      cases v with
      | null => simp
      | bool b => simp
      | num z => simp
      | str s =>
        simp only [] at hrest
        by_cases hbr : ((jsTrimChars s.data).contains '\x7b' &&
            (jsTrimChars s.data).contains '\x7d') = true
        · simp only [hbr, if_true] at hrest ⊢
          rw [Bool.and_eq_true] at hrest
          obtain ⟨hA, hB⟩ := hrest
          rcases hp : jsonParseChars (jsTrimChars s.data) with _ | parsed
          · simp only []
            rcases hi : charsIndexOf (jsTrimChars s.data) '\x7b' with _ | fb
            · rfl
            rcases hl : charsLastIndexOf (jsTrimChars s.data) '\x7d' with _ | lb
            · rfl
            rw [hi, hl] at hB
            simp only [] at hB ⊢
            by_cases hfl : fb < lb
            · rw [if_pos hfl] at hB ⊢
              by_cases heq : ((jsTrimChars s.data).drop fb).take (lb + 1 - fb) = jsTrimChars s.data
              · simp [heq]
              · have hne : ¬(((jsTrimChars s.data).drop fb).take (lb + 1 - fb) = jsTrimChars s.data) := heq
                simp only [ne_eq] at hB ⊢
                rw [if_pos hne] at hB ⊢
                rcases hp2 : jsonParseChars (((jsTrimChars s.data).drop fb).take (lb + 1 - fb)) with _ | p2
                · rfl
                · rw [hp2] at hB
                  simp only [] at hB ⊢
                  simp [ih p2 hB, optTruthy]
            · rw [if_neg hfl] at hB ⊢
          · rw [hp] at hA
            simp only [] at hA
            simp only []
            rw [ih parsed hA]
            simp only [optTruthy]
            rcases hi : charsIndexOf (jsTrimChars s.data) '\x7b' with _ | fb
            · rfl
            rcases hl : charsLastIndexOf (jsTrimChars s.data) '\x7d' with _ | lb
            · rfl
            rw [hi, hl] at hB
            simp only [] at hB ⊢
            by_cases hfl : fb < lb
            · rw [if_pos hfl] at hB ⊢
              by_cases heq : ((jsTrimChars s.data).drop fb).take (lb + 1 - fb) = jsTrimChars s.data
              · simp [heq]
              · have hne : ¬(((jsTrimChars s.data).drop fb).take (lb + 1 - fb) = jsTrimChars s.data) := heq
                simp only [ne_eq] at hB ⊢
                rw [if_pos hne] at hB ⊢
                rcases hp2 : jsonParseChars (((jsTrimChars s.data).drop fb).take (lb + 1 - fb)) with _ | p2
                · rfl
                · rw [hp2] at hB
                  simp only [] at hB ⊢
                  simp [ih p2 hB, optTruthy]
            · rw [if_neg hfl] at hB ⊢
        · simp at hbr ⊢
          intro h1 h2
          exact absurd h2 (hbr h1)
      | arr items =>
        simp only [] at hrest
        have hall : ∀ w ∈ items, findFuel n w = none := by
          intro w hw
          rw [List.all_eq_true] at hrest
          exact ih w (hrest w hw)
        exact firstTruthy_none_of_all hall
      | obj fields =>
        simp only [] at hrest
        have hall : ∀ p ∈ fields, findFuel n p.2 = none := by
          intro p hp
          rw [List.all_eq_true] at hrest
          exact ih p.2 (hrest p hp)
        exact firstTruthyField_none_of_all hall

theorem optTruthy_eq_some : ∀ {r : Option String} {s : String}, optTruthy r = some s → s ≠ "" := by
  intro r s h
  unfold optTruthy at h
  rcases r with _ | t
  · cases h
  · simp only [] at h
    split_ifs at h with hemp
    obtain rfl := Option.some.inj h
    simpa using hemp

theorem getFieldStr_some_ne : ∀ {fields : List (String × Json)} {k s},
    getFieldStr fields k = some s → s ≠ "" := by
  intro fields k s h
  unfold getFieldStr at h
  split at h
  · split_ifs at h with hemp
    obtain rfl := Option.some.inj h
    simpa using hemp
  · cases h

theorem matchHere_some_ne : ∀ {v s}, matchHere v = some s → s ≠ "" := by
  intro v s h
  rw [matchHere.eq_def] at h
  split at h
  · rcases h1 : getFieldStr _ "text_response" with _ | s1 <;> rw [h1] at h
    · rcases h2 : getFieldStr _ "output" with _ | s2 <;> rw [h2] at h
      · rcases h3 : getFieldStr _ "response" with _ | s3 <;> rw [h3] at h
        · rcases h4 : getFieldStr _ "message" with _ | s4 <;> rw [h4] at h
          · exact getFieldStr_some_ne h
          · obtain rfl := Option.some.inj h
            exact getFieldStr_some_ne h4
        · obtain rfl := Option.some.inj h
          exact getFieldStr_some_ne h3
      · obtain rfl := Option.some.inj h
        exact getFieldStr_some_ne h2
    · obtain rfl := Option.some.inj h
      exact getFieldStr_some_ne h1
  · cases h

theorem firstTruthy_some_ne {f : Json → Option String} :
    ∀ {l s}, firstTruthy f l = some s → s ≠ "" := by
  intro l
  induction l with
  | nil => intro s h; cases h
  | cons x xs ih =>
    intro s h
    simp only [firstTruthy] at h
    rcases ho : optTruthy (f x) with _ | t <;> rw [ho] at h
    · exact ih h
    · obtain rfl := Option.some.inj h
      exact optTruthy_eq_some ho

theorem firstTruthyField_some_ne {f : Json → Option String} :
    ∀ {l s}, firstTruthyField f l = some s → s ≠ "" := by
  intro l
  induction l with
  | nil => intro s h; cases h
  | cons x xs ih =>
    intro s h
    rcases x with ⟨k, v⟩
    simp only [firstTruthyField] at h
    rcases ho : optTruthy (f v) with _ | t <;> rw [ho] at h
    · exact ih h
    · obtain rfl := Option.some.inj h
      exact optTruthy_eq_some ho

set_option maxHeartbeats 1000000 in
theorem findFuel_some_ne_empty : ∀ n v s, findFuel n v = some s → s ≠ "" := by
  intro n v s h
  rcases n with _ | n'
  · cases h
  · rw [findFuel_succ] at h
    split_ifs at h with hf
    rcases hm : matchHere v with _ | t <;> rw [hm] at h
    · cases v with
      | null => simp at h
      | bool b => simp at h
      | num z => simp at h
      | str str0 =>
        dsimp only [] at h
        split_ifs at h with hbr
        · rcases hA : (match jsonParseChars (jsTrimChars str0.data) with
              | some parsed => optTruthy (findFuel n' parsed)
              | none => none) with _ | t2 <;> rw [hA] at h
          · dsimp only [] at h
            split at h
            · split_ifs at h with hfl hne
              rcases hp2 : jsonParseChars
                  (((jsTrimChars str0.data).drop _).take _) with _ | p2 <;> rw [hp2] at h
              · cases h
              · dsimp only [] at h
                exact optTruthy_eq_some h
            · cases h
          · dsimp only [] at h
            obtain rfl := Option.some.inj h
            rcases hp : jsonParseChars (jsTrimChars str0.data) with _ | parsed <;> rw [hp] at hA
            · cases hA
            · exact optTruthy_eq_some hA
      | arr items =>
        dsimp only [] at h
        exact firstTruthy_some_ne h
      | obj fields =>
        dsimp only [] at h
        exact firstTruthyField_some_ne h
    · dsimp only [] at h
      obtain rfl := Option.some.inj h
      exact matchHere_some_ne hm

/-- C3 counterexample: with a history consisting of one all-blank message
and a different current text, the bounded context set is empty, yet the
built summary is the empty string, not the start-of-conversation marker. -/
theorem claim_C3_counterexample :
    boundedContextSet "hi" [⟨"m1", Role.user, " ", 0, none, none⟩] = [] ∧
    buildMemoryContext "hi" [⟨"m1", Role.user, " ", 0, none, none⟩] = "" ∧
    buildMemoryContext "hi" [⟨"m1", Role.user, " ", 0, none, none⟩] ≠
      startOfConversationMarker := by decide

/-- C3 amended: the summary consists of the qualifying history messages
(content differing from the sent text and non-blank), bounded to the last
ten and joined as role-labelled lines; the start-of-conversation marker is
used exactly when the history minus same-content duplicates is empty
(before dropping blank messages). -/
theorem claim_C3_context_summary (text : String) (history : List Message) :
    buildMemoryContext text history =
      if history.filter (fun m => m.content ≠ text) = [] then startOfConversationMarker
      else String.intercalate "\n" ((boundedContextSet text history).map contextLine) := by
  unfold buildMemoryContext boundedContextSet contextLine
  dsimp only
  by_cases hf : history.filter (fun m => m.content ≠ text) = []
  · rw [if_pos hf, hf]
    rfl
  · rw [if_neg hf]
    rcases h' : history.filter (fun m => m.content ≠ text) with _ | ⟨m0, rest⟩
    · exact absurd h' hf
    · rw [h']
      simp

/-- C4 counterexample: appending a non-empty log to a session whose title is
user-set (not a placeholder) but whose message log is empty replaces the
title, contradicting the claimed "if and only if the title is still a
placeholder". -/
theorem claim_C4_counterexample :
    updateCurrentMessages [⟨"m1", Role.user, "hello world", 1, none, none⟩] 5
        ⟨[⟨"a", "My notes", [], 0⟩], some "a"⟩ =
      ⟨[⟨"a", "hello world", [⟨"m1", Role.user, "hello world", 1, none, none⟩], 5⟩], some "a"⟩ ∧
    ("My notes" ≠ placeholderTitleZh ∧ "My notes" ≠ placeholderTitleEn) ∧
    "hello world" ≠ "My notes" := by decide

/-- C4 amended: for a non-empty new log, the title of the session matching
the current id is replaced by the derived truncated title exactly when the
old title is one of the two placeholders or the old message log was empty;
any other session, and any session with a user-set title and a non-empty
old log, keeps its title. -/
theorem claim_C4_append_title_rule (firstMsg : Message) (rest : List Message) (now : Nat)
    (cid : String) (st : AppState) (hcur : st.currentSessionId = some cid)
    (i : Fin st.sessions.length) :
    ∃ hlen : i.1 < (updateCurrentMessages (firstMsg :: rest) now st).sessions.length,
      ((updateCurrentMessages (firstMsg :: rest) now st).sessions.get ⟨i.1, hlen⟩).title =
        if (st.sessions.get i).id = cid then
          (if (st.sessions.get i).title = placeholderTitleZh ∨
              (st.sessions.get i).title = placeholderTitleEn ∨
              (st.sessions.get i).messages = [] then derivedTitle firstMsg.content
           else (st.sessions.get i).title)
        else (st.sessions.get i).title := by
  unfold updateCurrentMessages
  rw [hcur]
  have hlen : i.1 < (st.sessions.map (updateSessionEntry cid (firstMsg :: rest) now)).length := by
    simp [i.2]
  refine ⟨hlen, ?_⟩
  have hget : (st.sessions.map (updateSessionEntry cid (firstMsg :: rest) now)).get ⟨i.1, hlen⟩ =
      updateSessionEntry cid (firstMsg :: rest) now (st.sessions.get i) := by
    simp [List.get_eq_getElem, List.getElem_map]
  rw [hget]
  generalize st.sessions.get i = session
  unfold updateSessionEntry
  by_cases hid : session.id = cid
  · simp only [hid, beq_self_eq_true, if_true]
    by_cases hdef : session.title = placeholderTitleZh ∨ session.title = placeholderTitleEn ∨
        session.messages = []
    · have hb : (session.title == placeholderTitleZh || session.title == placeholderTitleEn ||
          session.messages.length == 0) = true := by
        rcases hdef with h | h | h <;> simp [h]
      simp [hb, hdef]
    · have hb : (session.title == placeholderTitleZh || session.title == placeholderTitleEn ||
          session.messages.length == 0) = false := by
        push_neg at hdef
        obtain ⟨h1, h2, h3⟩ := hdef
        simp [h1, h2, h3, List.length_eq_zero]
      simp [hb, hdef]
  · have hb : (session.id == cid) = false := by simp [hid]
    simp [hb, hid]

theorem claim_C4_append_title_rule_witness :
    (⟨[⟨"a", "My notes", [], 0⟩], some "a"⟩ : AppState).currentSessionId = some "a" ∧
    ∃ hlen : (0 : Nat) < (updateCurrentMessages [⟨"m1", Role.user, "hello world", 1, none, none⟩] 5
        ⟨[⟨"a", "My notes", [], 0⟩], some "a"⟩).sessions.length,
      ((updateCurrentMessages [⟨"m1", Role.user, "hello world", 1, none, none⟩] 5
          ⟨[⟨"a", "My notes", [], 0⟩], some "a"⟩).sessions.get ⟨0, hlen⟩).title =
        if ((⟨[⟨"a", "My notes", [], 0⟩], some "a"⟩ : AppState).sessions.get
            ⟨0, by decide⟩).id = "a" then
          (if ((⟨[⟨"a", "My notes", [], 0⟩], some "a"⟩ : AppState).sessions.get
                ⟨0, by decide⟩).title = placeholderTitleZh ∨
              ((⟨[⟨"a", "My notes", [], 0⟩], some "a"⟩ : AppState).sessions.get
                ⟨0, by decide⟩).title = placeholderTitleEn ∨
              ((⟨[⟨"a", "My notes", [], 0⟩], some "a"⟩ : AppState).sessions.get
                ⟨0, by decide⟩).messages = [] then
            derivedTitle (⟨"m1", Role.user, "hello world", 1, none, none⟩ : Message).content
           else ((⟨[⟨"a", "My notes", [], 0⟩], some "a"⟩ : AppState).sessions.get
            ⟨0, by decide⟩).title)
        else ((⟨[⟨"a", "My notes", [], 0⟩], some "a"⟩ : AppState).sessions.get
          ⟨0, by decide⟩).title :=
  ⟨rfl, claim_C4_append_title_rule ⟨"m1", Role.user, "hello world", 1, none, none⟩ [] 5 "a"
    ⟨[⟨"a", "My notes", [], 0⟩], some "a"⟩ rfl ⟨0, by decide⟩⟩

/-- C5: deleting the only existing session leaves the store with exactly one
freshly created session — empty message log, placeholder title — and that
session becomes current. -/
theorem claim_C5_delete_last_session (s0 : ChatSession) (cur : Option String)
    (lang : AppLanguage) (now : Nat) :
    deleteSession s0.id lang now ⟨[s0], cur⟩ =
      ⟨[createSessionObject lang now], some (createSessionObject lang now).id⟩ ∧
    (createSessionObject lang now).messages = [] ∧
    isPlaceholderTitle (createSessionObject lang now).title = true := by
  refine ⟨?_, rfl, ?_⟩
  · unfold deleteSession
    have hfil : [s0].filter (fun s => s.id ≠ s0.id) = [] := by
      simp [List.filter]
    rw [hfil]
    rfl
  · unfold isPlaceholderTitle createSessionObject
    cases lang <;> rfl

theorem filter_ne_id_eq_erase : ∀ (ss : List ChatSession) (target : ChatSession),
    (ss.map ChatSession.id).Nodup → target ∈ ss →
    ss.filter (fun s => s.id ≠ target.id) = ss.erase target := by
  intro ss
  induction ss with
  | nil => intro target _ hmem; cases hmem
  | cons x rest ih =>
    intro target hnodup hmem
    simp only [List.map_cons, List.nodup_cons] at hnodup
    obtain ⟨hxid, hnodup2⟩ := hnodup
    by_cases hx : x = target
    · subst hx
      have hrest : rest.filter (fun s => s.id ≠ x.id) = rest := by
        apply List.filter_eq_self.mpr
        intro s hs
        simp only [ne_eq, decide_eq_true_eq]
        intro hsid
        exact hxid (hsid ▸ List.mem_map_of_mem ChatSession.id hs)
      rw [List.filter_cons_of_neg (by simp), List.erase_cons_head, hrest]
    · have htr : target ∈ rest := by
        rcases List.mem_cons.mp hmem with h | h
        · exact absurd h.symm hx
        · exact h
      have hxt : x.id ≠ target.id := by
        intro hxy
        exact hxid (hxy ▸ List.mem_map_of_mem ChatSession.id htr)
      rw [List.filter_cons_of_pos (by simp [hxt]),
        List.erase_cons_tail (by simp [hx]), ih target hnodup2 htr]

/-- C10: with at least two sessions, pairwise-distinct ids and a current
selection different from the target, deleting the target removes exactly
that session — every other session object is kept and the current selection
is unchanged. -/
theorem claim_C10_delete_other_session (target : ChatSession) (ss : List ChatSession)
    (cid : String) (lang : AppLanguage) (now : Nat)
    (hnodup : (ss.map ChatSession.id).Nodup)
    (hmem : target ∈ ss) (hlen : 2 ≤ ss.length) (hne : cid ≠ target.id) :
    (deleteSession target.id lang now ⟨ss, some cid⟩).sessions = ss.erase target ∧
    (deleteSession target.id lang now ⟨ss, some cid⟩).currentSessionId = some cid ∧
    target ∉ (deleteSession target.id lang now ⟨ss, some cid⟩).sessions ∧
    (deleteSession target.id lang now ⟨ss, some cid⟩).sessions.length = ss.length - 1 := by
  have hfe := filter_ne_id_eq_erase ss target hnodup hmem
  have herl : (ss.erase target).length = ss.length - 1 := List.length_erase_of_mem hmem
  have hnd : ss.Nodup := List.Nodup.of_map _ hnodup
  have hnotmem : target ∉ ss.erase target := by
    intro hcon
    exact absurd rfl ((List.Nodup.mem_erase_iff hnd).mp hcon).1
  unfold deleteSession
  dsimp only
  rw [hfe]
  rcases herase : ss.erase target with _ | ⟨first, rest2⟩
  · rw [herase] at herl
    simp at herl
    omega
  · have hcne : (some cid == some target.id) = false := by
      simp [hne]
    simp only [hcne, Bool.false_eq_true, if_false]
    exact ⟨trivial, trivial, herase ▸ hnotmem, herase ▸ herl⟩

theorem claim_C10_delete_other_session_witness :
    (([⟨"a", "t1", [], 0⟩, ⟨"b", "t2", [], 1⟩] : List ChatSession).map ChatSession.id).Nodup ∧
    (⟨"b", "t2", [], 1⟩ : ChatSession) ∈ ([⟨"a", "t1", [], 0⟩, ⟨"b", "t2", [], 1⟩] : List ChatSession) ∧
    2 ≤ ([⟨"a", "t1", [], 0⟩, ⟨"b", "t2", [], 1⟩] : List ChatSession).length ∧
    "a" ≠ (⟨"b", "t2", [], 1⟩ : ChatSession).id ∧
    ((deleteSession (⟨"b", "t2", [], 1⟩ : ChatSession).id .zh 9
        ⟨[⟨"a", "t1", [], 0⟩, ⟨"b", "t2", [], 1⟩], some "a"⟩).sessions =
      ([⟨"a", "t1", [], 0⟩, ⟨"b", "t2", [], 1⟩] : List ChatSession).erase ⟨"b", "t2", [], 1⟩ ∧
    (deleteSession (⟨"b", "t2", [], 1⟩ : ChatSession).id .zh 9
        ⟨[⟨"a", "t1", [], 0⟩, ⟨"b", "t2", [], 1⟩], some "a"⟩).currentSessionId = some "a" ∧
    (⟨"b", "t2", [], 1⟩ : ChatSession) ∉ (deleteSession (⟨"b", "t2", [], 1⟩ : ChatSession).id .zh 9
        ⟨[⟨"a", "t1", [], 0⟩, ⟨"b", "t2", [], 1⟩], some "a"⟩).sessions ∧
    (deleteSession (⟨"b", "t2", [], 1⟩ : ChatSession).id .zh 9
        ⟨[⟨"a", "t1", [], 0⟩, ⟨"b", "t2", [], 1⟩], some "a"⟩).sessions.length =
      ([⟨"a", "t1", [], 0⟩, ⟨"b", "t2", [], 1⟩] : List ChatSession).length - 1) :=
  ⟨by decide, by decide, by decide, by decide,
    claim_C10_delete_other_session ⟨"b", "t2", [], 1⟩ _ "a" .zh 9
      (by decide) (by decide) (by decide) (by decide)⟩

/-- C7: a 404 response always resolves to the fixed endpoint-misconfigured
message, regardless of the response body. -/
theorem claim_C7_endpoint_404 (body : String) :
    handleOrionResponse 404 body = SendOutcome.resolved endpoint404Msg := by
  unfold handleOrionResponse
  dsimp only
  rw [if_pos (by decide), if_pos (by decide)]
  decide

/-- C6 counterexample: the body `"0"` parses successfully (to the falsy JSON
number 0), yet the operation returns the raw body text `"0"`, not the
undecodable placeholder the claim requires when parsing did not "fail
entirely". -/
theorem claim_C6_counterexample :
    processOkBody "0" = "0" ∧ (jsonParseStr "0").isSome = true ∧ "0" ≠ undecodableMsg := by
  decide

/-- C6 amended: on a successful response the operation returns the
extractor's non-empty result when the body parses to a truthy JSON value;
otherwise the raw body verbatim when it is non-empty, non-blank and the
parse failed or produced a falsy value; otherwise the fixed placeholder. -/
theorem claim_C6_ok_body_rule (textResult : String) :
    processOkBody textResult = specProcessOk textResult := by
  unfold processOkBody specProcessOk
  rcases hp : jsonParseStr textResult with _ | j
  · by_cases h1 : textResult = "" <;> by_cases h2 : jsTrimString textResult = "" <;>
      simp [jsonTruthy, h1, h2]
  · by_cases hf : jsFalsy j = true
    · have hjt : jsonTruthy (some j) = false := by simp [jsonTruthy, hf]
      by_cases h1 : textResult = "" <;> by_cases h2 : jsTrimString textResult = "" <;>
        simp [hjt, hf, h1, h2]
    · simp only [Bool.not_eq_true] at hf
      have hjt : jsonTruthy (some j) = true := by simp [jsonTruthy, hf]
      rcases hr : findResponseText j with _ | t
      · simp [hjt, hf, optTruthy, hr]
      · by_cases ht : t = ""
        · simp [hjt, hf, optTruthy, hr, ht]
        · simp [hjt, hf, optTruthy, hr, ht]

/-! ## Round trip of `JSON.parse` after `JSON.stringify`, and claim C8

The development below establishes that the parser model recovers every
value the printer model produces, character by character: string escapes,
numbers, arrays and objects.  On top of it, the stored session collection
decodes back to itself, which settles the persistence round-trip claim. -/

theorem skipWs_cons_not_ws {c : Char} (cs : List Char) (h : jsonWs c = false) :
    skipWs (c :: cs) = c :: cs := by
  simp [skipWs, h]

theorem stripLit_self : ∀ (lit rest : List Char), stripLit lit (lit ++ rest) = some rest := by
  intro lit
  induction lit with
  | nil => intro rest; simp [stripLit]
  | cons l ls ih => intro rest; simp [stripLit, ih]

theorem char_toNat_ofNat {n : Nat} (h : n < 55296) : (Char.ofNat n).toNat = n := by
  have hv : n.isValidChar := Or.inl (by omega)
  unfold Char.ofNat
  rw [dif_pos hv]
  rfl

theorem hexVal_hexDigitChar {d : Nat} (h : d < 16) : hexVal (hexDigitChar d) = some d := by
  interval_cases d <;> decide

theorem isDigitChar_digit {d : Nat} (h : d < 10) :
    isDigitChar (Char.ofNat ('0'.toNat + d)) = true := by
  interval_cases d <;> decide

theorem natToChars_ne_nil (n : Nat) : natToChars n ≠ [] := by
  unfold natToChars
  split_ifs
  · simp
  · simp

theorem natToChars_all_digits : ∀ n, ∀ c ∈ natToChars n, isDigitChar c = true := by
  intro n
  induction n using Nat.strong_induction_on with
  | _ n ih =>
    intro c hc
    unfold natToChars at hc
    split_ifs at hc with h
    · simp at hc
      subst hc
      exact isDigitChar_digit h
    · rw [List.mem_append] at hc
      rcases hc with hc | hc
      · exact ih (n / 10) (Nat.div_lt_self (by omega) (by omega)) c hc
      · simp at hc
        subst hc
        exact isDigitChar_digit (Nat.mod_lt n (by omega))

theorem digitsToNat_append_digit (ds : List Char) (c : Char) :
    digitsToNat (ds ++ [c]) = 10 * digitsToNat ds + (c.toNat - '0'.toNat) := by
  unfold digitsToNat
  rw [List.foldl_append]
  simp only [List.foldl_cons, List.foldl_nil]
  omega

theorem digitsToNat_natToChars : ∀ n, digitsToNat (natToChars n) = n := by
  intro n
  have h48 : '0'.toNat = 48 := rfl
  induction n using Nat.strong_induction_on with
  | _ n ih =>
    unfold natToChars
    split_ifs with h
    · unfold digitsToNat
      simp only [List.foldl_cons, List.foldl_nil]
      have hv : (Char.ofNat ('0'.toNat + n)).toNat = '0'.toNat + n :=
        char_toNat_ofNat (by omega)
      rw [hv]
      omega
    · have hmod : n % 10 < 10 := Nat.mod_lt n (by omega)
      have hv : (Char.ofNat ('0'.toNat + n % 10)).toNat = '0'.toNat + n % 10 :=
        char_toNat_ofNat (by omega)
      rw [digitsToNat_append_digit, ih (n / 10) (Nat.div_lt_self (by omega) (by omega)), hv]
      omega

theorem takeDigits_append : ∀ (ds rest : List Char),
    (∀ c ∈ ds, isDigitChar c = true) →
    (∀ c ∈ rest.head?, isDigitChar c = false) →
    takeDigits (ds ++ rest) = (ds, rest) := by
  intro ds
  induction ds with
  | nil =>
    intro rest _ hrest
    cases rest with
    | nil => rfl
    | cons c cs =>
      have hc := hrest c (by simp)
      simp [takeDigits, hc]
  | cons d ds2 ih =>
    intro rest hds hrest
    have hd := hds d (by simp)
    have hrec := ih rest (fun c hc => hds c (by simp [hc])) hrest
    simp only [List.cons_append, takeDigits, hd, if_true]
    rw [show ds2.append rest = ds2 ++ rest from rfl, hrec]

theorem parseStringBody_escape : ∀ (s rest : List Char),
    parseStringBody (escapeChars s ++ '"' :: rest) = some (s, rest) := by
  intro s
  induction s with
  | nil =>
    intro rest
    exact parseStringBody.eq_2 rest
  | cons c cs ih =>
    intro rest
    rw [escapeChars, List.append_assoc]
    unfold escapeJsonChar
    split_ifs with h1 h2 h3 h4 h5 h6 h7 h8
    · rw [eq_of_beq h1]
      rw [show (['\\', '"'] ++ (escapeChars cs ++ '"' :: rest) : List Char) =
            '\\' :: '"' :: (escapeChars cs ++ '"' :: rest) from rfl]
      rw [parseStringBody.eq_4 _ _ (fun _ _ _ _ _ he _ => absurd he (by decide))]
      simp only [show unescapeChar '"' = some '"' from rfl, ih]
    · rw [eq_of_beq h2]
      rw [show (['\\', '\\'] ++ (escapeChars cs ++ '"' :: rest) : List Char) =
            '\\' :: '\\' :: (escapeChars cs ++ '"' :: rest) from rfl]
      rw [parseStringBody.eq_4 _ _ (fun _ _ _ _ _ he _ => absurd he (by decide))]
      simp only [show unescapeChar '\\' = some '\\' from rfl, ih]
    · rw [eq_of_beq h3]
      rw [show (['\\', 'n'] ++ (escapeChars cs ++ '"' :: rest) : List Char) =
            '\\' :: 'n' :: (escapeChars cs ++ '"' :: rest) from rfl]
      rw [parseStringBody.eq_4 _ _ (fun _ _ _ _ _ he _ => absurd he (by decide))]
      simp only [show unescapeChar 'n' = some '\n' from rfl, ih]
    · rw [eq_of_beq h4]
      rw [show (['\\', 'r'] ++ (escapeChars cs ++ '"' :: rest) : List Char) =
            '\\' :: 'r' :: (escapeChars cs ++ '"' :: rest) from rfl]
      rw [parseStringBody.eq_4 _ _ (fun _ _ _ _ _ he _ => absurd he (by decide))]
      simp only [show unescapeChar 'r' = some '\r' from rfl, ih]
    · rw [eq_of_beq h5]
      rw [show (['\\', 't'] ++ (escapeChars cs ++ '"' :: rest) : List Char) =
            '\\' :: 't' :: (escapeChars cs ++ '"' :: rest) from rfl]
      rw [parseStringBody.eq_4 _ _ (fun _ _ _ _ _ he _ => absurd he (by decide))]
      simp only [show unescapeChar 't' = some '\t' from rfl, ih]
    · rw [eq_of_beq h6]
      rw [show (['\\', 'b'] ++ (escapeChars cs ++ '"' :: rest) : List Char) =
            '\\' :: 'b' :: (escapeChars cs ++ '"' :: rest) from rfl]
      rw [parseStringBody.eq_4 _ _ (fun _ _ _ _ _ he _ => absurd he (by decide))]
      simp only [show unescapeChar 'b' = some '\x08' from rfl, ih]
    · rw [eq_of_beq h7]
      rw [show (['\\', 'f'] ++ (escapeChars cs ++ '"' :: rest) : List Char) =
            '\\' :: 'f' :: (escapeChars cs ++ '"' :: rest) from rfl]
      rw [parseStringBody.eq_4 _ _ (fun _ _ _ _ _ he _ => absurd he (by decide))]
      simp only [show unescapeChar 'f' = some '\x0c' from rfl, ih]
    · rw [show (['\\', 'u', '0', '0', hexDigitChar (c.toNat / 16), hexDigitChar (c.toNat % 16)] ++
              (escapeChars cs ++ '"' :: rest) : List Char) =
            '\\' :: 'u' :: '0' :: '0' :: hexDigitChar (c.toNat / 16) :: hexDigitChar (c.toNat % 16)
              :: (escapeChars cs ++ '"' :: rest) from rfl]
      rw [parseStringBody.eq_3]
      have hdiv : hexVal (hexDigitChar (c.toNat / 16)) = some (c.toNat / 16) :=
        hexVal_hexDigitChar (by omega)
      have hmod : hexVal (hexDigitChar (c.toNat % 16)) = some (c.toNat % 16) :=
        hexVal_hexDigitChar (by omega)
      simp only [show hexVal '0' = some 0 from rfl, hdiv, hmod, ih]
      have harith : ((0 * 16 + 0) * 16 + c.toNat / 16) * 16 + c.toNat % 16 = c.toNat := by omega
      rw [harith, Char.ofNat_toNat]
    · have hc1 : ¬ c = '"' := fun he => h1 (by simp [he])
      have hc2 : ¬ c = '\\' := fun he => h2 (by simp [he])
      rw [show ([c] ++ (escapeChars cs ++ '"' :: rest) : List Char) =
            c :: (escapeChars cs ++ '"' :: rest) from rfl]
      rw [parseStringBody.eq_6 _ _ hc1 (fun _ _ _ _ _ he _ => hc2 he)
            (fun _ _ he _ => hc2 he) (fun he _ => hc2 he)]
      rw [if_neg h8]
      simp only [ih]

theorem isDigitChar_ne {c d : Char} (h : isDigitChar c = true) (hd : isDigitChar d = false) :
    c ≠ d := fun he => by rw [he, hd] at h; cases h

theorem isDigitChar_not_ws {c : Char} (h : isDigitChar c = true) : jsonWs c = false := by
  cases hw : jsonWs c
  · rfl
  · exfalso
    simp [jsonWs] at hw
    rcases hw with ((rfl | rfl) | rfl) | rfl <;> exact absurd h (by decide)

theorem expectDigits_append (ds rest : List Char)
    (hds : ∀ c ∈ ds, isDigitChar c = true) (hne : ds ≠ [])
    (hrest : ∀ c ∈ rest.head?, isDigitChar c = false) :
    expectDigits (ds ++ rest) = some rest := by
  unfold expectDigits
  rw [takeDigits_append ds rest hds hrest]
  simp [hne]

theorem skipFrac_not_dot (rest : List Char) (h : ∀ c ∈ rest.head?, c ≠ '.') :
    skipFrac rest = some rest := by
  cases rest with
  | nil => rfl
  | cons c cs =>
    have hc : c ≠ '.' := h c (by simp)
    exact skipFrac.eq_2 (c :: cs) (fun cs' he => hc (by injection he))

theorem skipExp_not_e (rest : List Char) (h : ∀ c ∈ rest.head?, c ≠ 'e' ∧ c ≠ 'E') :
    skipExp rest = some rest := by
  cases rest with
  | nil => rfl
  | cons c cs =>
    have hc := h c (by simp)
    exact skipExp.eq_7 (c :: cs)
      (fun cs' he => hc.1 (by injection he))
      (fun cs' he => hc.1 (by injection he))
      (fun cs' he => hc.1 (by injection he))
      (fun cs' he => hc.2 (by injection he))
      (fun cs' he => hc.2 (by injection he))
      (fun cs' he => hc.2 (by injection he))

theorem parseIntTail_natToChars (neg : Bool) (m : Nat) (rest : List Char)
    (hrest : ∀ c ∈ rest.head?, isDigitChar c = false ∧ c ≠ '.' ∧ c ≠ 'e' ∧ c ≠ 'E') :
    parseIntTail neg (natToChars m ++ rest) =
      some (Json.num (if neg then -(m : Int) else (m : Int)), rest) := by
  unfold parseIntTail
  rw [takeDigits_append (natToChars m) rest (natToChars_all_digits m)
        (fun c hc => (hrest c hc).1)]
  dsimp only
  have hne : (natToChars m).isEmpty = false := by
    rw [List.isEmpty_eq_false]
    exact natToChars_ne_nil m
  rw [hne]
  simp only [Bool.false_eq_true, if_false]
  rw [skipFrac_not_dot rest (fun c hc => (hrest c hc).2.1)]
  dsimp only
  rw [skipExp_not_e rest (fun c hc => ⟨(hrest c hc).2.2.1, (hrest c hc).2.2.2⟩)]
  dsimp only
  rw [digitsToNat_natToChars]

theorem parseNumber_intToChars (n : Int) (rest : List Char)
    (hrest : ∀ c ∈ rest.head?, isDigitChar c = false ∧ c ≠ '.' ∧ c ≠ 'e' ∧ c ≠ 'E') :
    parseNumber (intToChars n ++ rest) = some (Json.num n, rest) := by
  unfold intToChars
  by_cases hn : n < 0
  · rw [if_pos hn, List.cons_append]
    rw [show parseNumber ('-' :: (natToChars n.natAbs ++ rest)) =
          parseIntTail true (natToChars n.natAbs ++ rest) from rfl]
    rw [parseIntTail_natToChars true n.natAbs rest hrest]
    have : -(n.natAbs : Int) = n := by omega
    rw [if_pos rfl, this]
  · rw [if_neg hn]
    rcases hnt : natToChars n.toNat with _ | ⟨d, t⟩
    · exact absurd hnt (natToChars_ne_nil n.toNat)
    · have hd : isDigitChar d = true := by
        apply natToChars_all_digits n.toNat
        rw [hnt]; simp
      have hdm : d ≠ '-' := isDigitChar_ne hd (by decide)
      rw [List.cons_append]
      rw [parseNumber.eq_2 _ (fun cs2 he => hdm (by injection he))]
      rw [← List.cons_append, ← hnt]
      rw [parseIntTail_natToChars false n.toNat rest hrest]
      have : (n.toNat : Int) = n := by omega
      rw [if_neg (by decide), this]

theorem stringify_head (v : Json) : ∃ c t, jsonStringifyChars v = c :: t ∧
    jsonWs c = false ∧ c ≠ ']' := by
  cases v with
  | null => exact ⟨'n', _, rfl, by decide, by decide⟩
  | bool b =>
    cases b with
    | false => exact ⟨'f', _, rfl, by decide, by decide⟩
    | true => exact ⟨'t', _, rfl, by decide, by decide⟩
  | num n =>
    rw [show jsonStringifyChars (Json.num n) = intToChars n from rfl]
    unfold intToChars
    by_cases hn : n < 0
    · rw [if_pos hn]
      exact ⟨'-', _, rfl, by decide, by decide⟩
    · rw [if_neg hn]
      rcases hnt : natToChars n.toNat with _ | ⟨d, t⟩
      · exact absurd hnt (natToChars_ne_nil n.toNat)
      · have hd : isDigitChar d = true := by
          apply natToChars_all_digits n.toNat
          rw [hnt]; simp
        exact ⟨d, t, rfl, isDigitChar_not_ws hd, isDigitChar_ne hd (by decide)⟩
  | str s => exact ⟨'"', _, rfl, by decide, by decide⟩
  | arr items =>
    cases items with
    | nil => exact ⟨'\x5b', _, rfl, by decide, by decide⟩
    | cons v vs => exact ⟨'\x5b', _, rfl, by decide, by decide⟩
  | obj fields =>
    cases fields with
    | nil => exact ⟨'\x7b', _, rfl, by decide, by decide⟩
    | cons f fs =>
      rcases f with ⟨k, v⟩
      exact ⟨'\x7b', _, rfl, by decide, by decide⟩

theorem parseVal_succ (n : Nat) (cs : List Char) :
    parseVal (n + 1) cs =
      (match skipWs cs with
       | [] => none
       | c :: cs' =>
         if c == 'n' then
           match stripLit ['u', 'l', 'l'] cs' with
           | some rest => some (Json.null, rest)
           | none => none
         else if c == 't' then
           match stripLit ['r', 'u', 'e'] cs' with
           | some rest => some (Json.bool true, rest)
           | none => none
         else if c == 'f' then
           match stripLit ['a', 'l', 's', 'e'] cs' with
           | some rest => some (Json.bool false, rest)
           | none => none
         else if c == '"' then
           match parseStringBody cs' with
           | some (content, rest) => some (Json.str (String.mk content), rest)
           | none => none
         else if c == '[' then
           match skipWs cs' with
           | ']' :: rest => some (Json.arr [], rest)
           | _ =>
             match parseItems n cs' with
             | some (vs, rest) => some (Json.arr vs, rest)
             | none => none
         else if c == '\x7b' then
           match skipWs cs' with
           | '\x7d' :: rest => some (Json.obj [], rest)
           | _ =>
             match parseFields n cs' with
             | some (fs, rest) => some (Json.obj fs, rest)
             | none => none
         else parseNumber (c :: cs')) := rfl

theorem parseItems_succ (n : Nat) (cs : List Char) :
    parseItems (n + 1) cs =
      (match parseVal n cs with
       | some (v, rest) =>
         match skipWs rest with
         | ',' :: rest2 =>
           match parseItems n rest2 with
           | some (vs, rest3) => some (v :: vs, rest3)
           | none => none
         | ']' :: rest2 => some ([v], rest2)
         | _ => none
       | none => none) := rfl

theorem parseFields_succ (n : Nat) (cs : List Char) :
    parseFields (n + 1) cs =
      (match skipWs cs with
       | '"' :: cs' =>
         match parseStringBody cs' with
         | some (key, rest) =>
           match skipWs rest with
           | ':' :: rest2 =>
             match parseVal n rest2 with
             | some (v, rest3) =>
               match skipWs rest3 with
               | ',' :: rest4 =>
                 match parseFields n rest4 with
                 | some (fs, rest5) => some ((String.mk key, v) :: fs, rest5)
                 | none => none
               | '\x7d' :: rest4 => some ([(String.mk key, v)], rest4)
               | _ => none
             | none => none
           | _ => none
         | none => none
       | _ => none) := rfl

theorem stringify_parse : ∀ fuel : Nat,
    (∀ (v : Json) (rest : List Char),
      (∀ c ∈ rest.head?, isDigitChar c = false ∧ c ≠ '.' ∧ c ≠ 'e' ∧ c ≠ 'E') →
      2 * Json.size v ≤ fuel →
      parseVal fuel (jsonStringifyChars v ++ rest) = some (v, rest)) ∧
    (∀ (v : Json) (vs : List Json) (rest : List Char),
      2 * Json.sizeItems (v :: vs) + 1 ≤ fuel →
      parseItems fuel (jsonStringifyChars v ++ (stringifyMoreItems vs ++ ']' :: rest)) =
        some (v :: vs, rest)) ∧
    (∀ (k : String) (v : Json) (fs : List (String × Json)) (rest : List Char),
      2 * Json.sizeFields ((k, v) :: fs) + 1 ≤ fuel →
      parseFields fuel ('"' :: (escapeChars k.data ++ ('"' :: ':' ::
        (jsonStringifyChars v ++ (stringifyMoreFields fs ++ '\x7d' :: rest))))) =
        some ((k, v) :: fs, rest)) := by
  intro fuel
  induction fuel with
  | zero =>
    refine ⟨?_, ?_, ?_⟩
    · intro v rest _ hsz
      have := Json.size_pos v
      omega
    · intro v vs rest hsz
      omega
    · intro k v fs rest hsz
      omega
  | succ n ih =>
    obtain ⟨ihV, ihI, ihF⟩ := ih
    refine ⟨?_, ?_, ?_⟩
    · intro v rest hrest hsz
      cases v with
      | null =>
        rw [show jsonStringifyChars Json.null ++ rest = 'n' :: 'u' :: 'l' :: 'l' :: rest from rfl]
        rw [parseVal_succ, skipWs_cons_not_ws _ (by decide)]
        dsimp only
        rw [if_pos (by decide)]
        rw [show stripLit ['u', 'l', 'l'] ('u' :: 'l' :: 'l' :: rest) = some rest from by
          simp [stripLit]]
      | bool b =>
        cases b with
        | true =>
          rw [show jsonStringifyChars (Json.bool true) ++ rest =
                't' :: 'r' :: 'u' :: 'e' :: rest from rfl]
          rw [parseVal_succ, skipWs_cons_not_ws _ (by decide)]
          dsimp only
          rw [if_neg (by decide), if_pos (by decide)]
          rw [show stripLit ['r', 'u', 'e'] ('r' :: 'u' :: 'e' :: rest) = some rest from by
            simp [stripLit]]
        | false =>
          rw [show jsonStringifyChars (Json.bool false) ++ rest =
                'f' :: 'a' :: 'l' :: 's' :: 'e' :: rest from rfl]
          rw [parseVal_succ, skipWs_cons_not_ws _ (by decide)]
          dsimp only
          rw [if_neg (by decide), if_neg (by decide), if_pos (by decide)]
          rw [show stripLit ['a', 'l', 's', 'e'] ('a' :: 'l' :: 's' :: 'e' :: rest) = some rest
            from by simp [stripLit]]
      | num m =>
        rw [show jsonStringifyChars (Json.num m) ++ rest = intToChars m ++ rest from rfl]
        rw [parseVal_succ]
        unfold intToChars
        by_cases hm : m < 0
        · rw [if_pos hm, List.cons_append, skipWs_cons_not_ws _ (by decide)]
          dsimp only
          rw [if_neg (by decide), if_neg (by decide), if_neg (by decide), if_neg (by decide),
              if_neg (by decide), if_neg (by decide)]
          rw [← List.cons_append]
          have h2 : intToChars m = '-' :: natToChars m.natAbs := by
            unfold intToChars
            rw [if_pos hm]
          rw [← h2]
          exact parseNumber_intToChars m rest hrest
        · rw [if_neg hm]
          rcases hnt : natToChars m.toNat with _ | ⟨d, t⟩
          · exact absurd hnt (natToChars_ne_nil m.toNat)
          · have hd : isDigitChar d = true := by
              apply natToChars_all_digits m.toNat
              rw [hnt]
              simp
            rw [List.cons_append, skipWs_cons_not_ws _ (isDigitChar_not_ws hd)]
            dsimp only
            have e1 : ¬ ((d == 'n') = true) := by
              simp only [beq_iff_eq]
              exact isDigitChar_ne hd (by decide)
            have e2 : ¬ ((d == 't') = true) := by
              simp only [beq_iff_eq]
              exact isDigitChar_ne hd (by decide)
            have e3 : ¬ ((d == 'f') = true) := by
              simp only [beq_iff_eq]
              exact isDigitChar_ne hd (by decide)
            have e4 : ¬ ((d == '"') = true) := by
              simp only [beq_iff_eq]
              exact isDigitChar_ne hd (by decide)
            have e5 : ¬ ((d == '[') = true) := by
              simp only [beq_iff_eq]
              exact isDigitChar_ne hd (by decide)
            have e6 : ¬ ((d == '\x7b') = true) := by
              simp only [beq_iff_eq]
              exact isDigitChar_ne hd (by decide)
            rw [if_neg e1, if_neg e2, if_neg e3, if_neg e4, if_neg e5, if_neg e6]
            rw [← List.cons_append, ← hnt]
            have h2 : intToChars m = natToChars m.toNat := by
              unfold intToChars
              rw [if_neg hm]
            rw [← h2]
            exact parseNumber_intToChars m rest hrest
      | str s =>
        rw [show jsonStringifyChars (Json.str s) ++ rest =
              '"' :: (escapeChars s.data ++ ('"' :: rest)) from by
          simp [jsonStringifyChars]]
        rw [parseVal_succ, skipWs_cons_not_ws _ (by decide)]
        dsimp only
        rw [if_neg (by decide), if_neg (by decide), if_neg (by decide), if_pos (by decide)]
        rw [parseStringBody_escape]
      | arr items =>
        cases items with
        | nil =>
          rw [show jsonStringifyChars (Json.arr []) ++ rest = '[' :: ']' :: rest from rfl]
          rw [parseVal_succ, skipWs_cons_not_ws _ (by decide)]
          dsimp only
          rw [if_neg (by decide), if_neg (by decide), if_neg (by decide), if_neg (by decide),
              if_pos (by decide)]
          rw [skipWs_cons_not_ws _ (by decide)]
          rfl
        | cons v1 vs =>
          rw [show jsonStringifyChars (Json.arr (v1 :: vs)) ++ rest =
                '[' :: (jsonStringifyChars v1 ++ (stringifyMoreItems vs ++ ']' :: rest)) from by
            simp [jsonStringifyChars]]
          rw [parseVal_succ, skipWs_cons_not_ws _ (by decide)]
          dsimp only
          rw [if_neg (by decide), if_neg (by decide), if_neg (by decide), if_neg (by decide),
              if_pos (by decide)]
          have hI := ihI v1 vs rest (by
            simp only [Json.size] at hsz
            omega)
          obtain ⟨c1, t1, hct, hws, hbr⟩ := stringify_head v1
          rw [hct, List.cons_append] at hI
          rw [hct, List.cons_append, skipWs_cons_not_ws _ hws]
          split
          · next r heq =>
            exact absurd (List.cons_eq_cons.mp heq).1 hbr
          · rw [hI]
      | obj fields =>
        cases fields with
        | nil =>
          rw [show jsonStringifyChars (Json.obj []) ++ rest = '\x7b' :: '\x7d' :: rest from rfl]
          rw [parseVal_succ, skipWs_cons_not_ws _ (by decide)]
          dsimp only
          rw [if_neg (by decide), if_neg (by decide), if_neg (by decide), if_neg (by decide),
              if_neg (by decide), if_pos (by decide)]
          rw [skipWs_cons_not_ws _ (by decide)]
          rfl
        | cons f fs =>
          rcases f with ⟨k, v1⟩
          rw [show jsonStringifyChars (Json.obj ((k, v1) :: fs)) ++ rest =
                '\x7b' :: ('"' :: (escapeChars k.data ++ ('"' :: ':' ::
                  (jsonStringifyChars v1 ++ (stringifyMoreFields fs ++ '\x7d' :: rest))))) from by
            simp [jsonStringifyChars]]
          rw [parseVal_succ, skipWs_cons_not_ws _ (by decide)]
          dsimp only
          rw [if_neg (by decide), if_neg (by decide), if_neg (by decide), if_neg (by decide),
              if_neg (by decide), if_pos (by decide)]
          rw [skipWs_cons_not_ws _ (by decide)]
          have hF := ihF k v1 fs rest (by
            simp only [Json.size] at hsz
            omega)
          split
          · next r heq =>
            exact absurd (List.cons_eq_cons.mp heq).1 (by decide)
          · rw [hF]
    · intro v vs rest hsz
      rw [parseItems_succ]
      have hrest' : ∀ c ∈ (stringifyMoreItems vs ++ ']' :: rest).head?,
          isDigitChar c = false ∧ c ≠ '.' ∧ c ≠ 'e' ∧ c ≠ 'E' := by
        cases vs with
        | nil =>
          intro c hc
          rw [show stringifyMoreItems [] ++ ']' :: rest = ']' :: rest from rfl] at hc
          simp at hc
          subst hc
          exact ⟨by decide, by decide, by decide, by decide⟩
        | cons v2 vs2 =>
          intro c hc
          rw [show stringifyMoreItems (v2 :: vs2) ++ ']' :: rest =
                ',' :: ((jsonStringifyChars v2 ++ stringifyMoreItems vs2) ++ ']' :: rest)
              from rfl] at hc
          simp at hc
          subst hc
          exact ⟨by decide, by decide, by decide, by decide⟩
      have hV := ihV v (stringifyMoreItems vs ++ ']' :: rest) hrest' (by
        simp only [Json.sizeItems] at hsz
        omega)
      rw [hV]
      dsimp only
      cases vs with
      | nil =>
        rw [show stringifyMoreItems [] ++ ']' :: rest = ']' :: rest from rfl]
        rw [skipWs_cons_not_ws _ (by decide)]
        rfl
      | cons v2 vs2 =>
        rw [show stringifyMoreItems (v2 :: vs2) ++ ']' :: rest =
              ',' :: (jsonStringifyChars v2 ++ (stringifyMoreItems vs2 ++ ']' :: rest)) from by
          simp [stringifyMoreItems]]
        rw [skipWs_cons_not_ws _ (by decide)]
        split
        · next rest2 heq =>
          obtain ⟨-, rfl⟩ := List.cons_eq_cons.mp heq
          rw [ihI v2 vs2 rest (by
            simp only [Json.sizeItems] at hsz ⊢
            have := Json.size_pos v
            omega)]
        · next rest2 heq =>
          exact absurd (List.cons_eq_cons.mp heq).1 (by decide)
        · next h1 h2 =>
          exact absurd rfl (h1 _)
    · intro k v fs rest hsz
      have hrest' : ∀ c ∈ (stringifyMoreFields fs ++ '\x7d' :: rest).head?,
          isDigitChar c = false ∧ c ≠ '.' ∧ c ≠ 'e' ∧ c ≠ 'E' := by
        cases fs with
        | nil =>
          intro c hc
          rw [show stringifyMoreFields [] ++ '\x7d' :: rest = '\x7d' :: rest from rfl] at hc
          simp at hc
          subst hc
          exact ⟨by decide, by decide, by decide, by decide⟩
        | cons f2 fs2 =>
          rcases f2 with ⟨k2, v2⟩
          intro c hc
          rw [show stringifyMoreFields ((k2, v2) :: fs2) ++ '\x7d' :: rest =
                ',' :: (('"' :: (escapeChars k2.data ++ ('"' :: ':' ::
                  (jsonStringifyChars v2 ++ stringifyMoreFields fs2)))) ++ '\x7d' :: rest)
              from rfl] at hc
          simp at hc
          subst hc
          exact ⟨by decide, by decide, by decide, by decide⟩
      rw [parseFields_succ, skipWs_cons_not_ws _ (by decide)]
      split
      · next cs' heq =>
        obtain ⟨-, rfl⟩ := List.cons_eq_cons.mp heq
        rw [parseStringBody_escape]
        dsimp only
        rw [skipWs_cons_not_ws _ (by decide)]
        split
        · next rest2 heq2 =>
          obtain ⟨-, rfl⟩ := List.cons_eq_cons.mp heq2
          rw [ihV v (stringifyMoreFields fs ++ '\x7d' :: rest) hrest' (by
            simp only [Json.sizeFields] at hsz
            omega)]
          dsimp only
          cases fs with
          | nil =>
            rw [show stringifyMoreFields [] ++ '\x7d' :: rest = '\x7d' :: rest from rfl]
            rw [skipWs_cons_not_ws _ (by decide)]
            split
            · next rest4 heq4 =>
              exact absurd (List.cons_eq_cons.mp heq4).1 (by decide)
            · next rest4 heq4 =>
              obtain ⟨-, rfl⟩ := List.cons_eq_cons.mp heq4
              rfl
            · next h1 h2 =>
              exact absurd rfl (h2 rest)
          | cons f2 fs2 =>
            rcases f2 with ⟨k2, v2⟩
            rw [show stringifyMoreFields ((k2, v2) :: fs2) ++ '\x7d' :: rest =
                  ',' :: ('"' :: (escapeChars k2.data ++ ('"' :: ':' ::
                    (jsonStringifyChars v2 ++ (stringifyMoreFields fs2 ++ '\x7d' :: rest)))))
                from by simp [stringifyMoreFields]]
            rw [skipWs_cons_not_ws _ (by decide)]
            split
            · next rest4 heq4 =>
              obtain ⟨-, rfl⟩ := List.cons_eq_cons.mp heq4
              rw [ihF k2 v2 fs2 rest (by
                simp only [Json.sizeFields] at hsz ⊢
                have := Json.size_pos v
                omega)]
            · next rest4 heq4 =>
              exact absurd (List.cons_eq_cons.mp heq4).1 (by decide)
            · next h1 h2 =>
              exact absurd rfl (h1 _)
        · next h1 =>
          exact absurd rfl (h1 _)
      · next h1 =>
        exact absurd rfl (h1 _)

theorem escapeJsonChar_length (c : Char) : 1 ≤ (escapeJsonChar c).length := by
  unfold escapeJsonChar
  split_ifs <;> simp

theorem escapeChars_length : ∀ s : List Char, s.length ≤ (escapeChars s).length := by
  intro s
  induction s with
  | nil => simp [escapeChars]
  | cons c cs ih =>
    rw [escapeChars, List.length_append, List.length_cons]
    have := escapeJsonChar_length c
    omega

theorem stringifyMoreItems_length (vs : List Json)
    (h : ∀ v ∈ vs, Json.size v ≤ (jsonStringifyChars v).length) :
    Json.sizeItems vs ≤ (stringifyMoreItems vs).length := by
  induction vs with
  | nil => simp [Json.sizeItems, stringifyMoreItems]
  | cons v vs ih =>
    rw [Json.sizeItems, stringifyMoreItems, List.length_cons, List.length_append]
    have h1 := h v (by simp)
    have h2 := ih (fun u hu => h u (by simp [hu]))
    omega

theorem stringifyMoreFields_length (fs : List (String × Json))
    (h : ∀ p ∈ fs, Json.size p.2 ≤ (jsonStringifyChars p.2).length) :
    Json.sizeFields fs ≤ (stringifyMoreFields fs).length := by
  induction fs with
  | nil => simp [Json.sizeFields, stringifyMoreFields]
  | cons f fs ih =>
    rcases f with ⟨k, v⟩
    rw [Json.sizeFields, stringifyMoreFields, List.length_cons, List.length_cons,
        List.length_append, List.length_cons, List.length_cons, List.length_append]
    have h1 : Json.size v ≤ (jsonStringifyChars v).length := h (k, v) (by simp)
    have h2 := ih (fun u hu => h u (by simp [hu]))
    have h3 := escapeChars_length k.data
    have h4 : k.length = k.data.length := rfl
    omega

theorem stringify_length (v : Json) : Json.size v ≤ (jsonStringifyChars v).length := by
  suffices H : ∀ n v, Json.size v ≤ n → Json.size v ≤ (jsonStringifyChars v).length from
    H (Json.size v) v le_rfl
  intro n
  induction n using Nat.strong_induction_on with
  | _ n ih =>
    intro v hv
    cases v with
    | null => decide
    | bool b => cases b <;> decide
    | num m =>
      rw [show Json.size (Json.num m) = 1 from rfl,
          show jsonStringifyChars (Json.num m) = intToChars m from rfl]
      unfold intToChars
      split_ifs
      · simp
      · have := natToChars_ne_nil m.toNat
        have := List.length_pos.mpr this
        omega
    | str s =>
      rw [show Json.size (Json.str s) = 1 + s.length from rfl]
      rw [show jsonStringifyChars (Json.str s) = '"' :: (escapeChars s.data ++ ['"']) from rfl]
      rw [List.length_cons, List.length_append]
      have := escapeChars_length s.data
      have hsl : s.length = s.data.length := rfl
      omega
    | arr items =>
      cases items with
      | nil => decide
      | cons v1 vs =>
        rw [show Json.size (Json.arr (v1 :: vs)) =
              1 + (Json.size v1 + Json.sizeItems vs) from rfl]
        rw [show jsonStringifyChars (Json.arr (v1 :: vs)) =
              '[' :: (jsonStringifyChars v1 ++ (stringifyMoreItems vs ++ [']'])) from rfl]
        rw [List.length_cons, List.length_append, List.length_append]
        have hsub : ∀ u ∈ vs, Json.size u ≤ (jsonStringifyChars u).length := by
          intro u hu
          have h1 : Json.size u ≤ Json.sizeItems vs := Json.size_le_sizeItems hu
          have h2 := Json.size_pos v1
          apply ih (Json.size u) (by
            rw [show Json.size (Json.arr (v1 :: vs)) =
                  1 + (Json.size v1 + Json.sizeItems vs) from rfl] at hv
            omega)
          exact le_rfl
        have h1 := stringifyMoreItems_length vs hsub
        have h2 : Json.size v1 ≤ (jsonStringifyChars v1).length := by
          apply ih (Json.size v1) (by
            rw [show Json.size (Json.arr (v1 :: vs)) =
                  1 + (Json.size v1 + Json.sizeItems vs) from rfl] at hv
            have := Json.size_pos v1
            omega)
          exact le_rfl
        omega
    | obj fields =>
      cases fields with
      | nil => decide
      | cons f fs =>
        rcases f with ⟨k, v1⟩
        rw [show Json.size (Json.obj ((k, v1) :: fs)) =
              1 + (k.length + Json.size v1 + Json.sizeFields fs) from rfl]
        rw [show jsonStringifyChars (Json.obj ((k, v1) :: fs)) =
              '\x7b' :: ('"' :: (escapeChars k.data ++ ('"' :: ':' ::
                (jsonStringifyChars v1 ++ (stringifyMoreFields fs ++ ['\x7d']))))) from rfl]
        simp only [List.length_cons, List.length_append]
        have hsz : Json.size (Json.obj ((k, v1) :: fs)) =
            1 + (k.length + Json.size v1 + Json.sizeFields fs) := rfl
        have hsub : ∀ p ∈ fs, Json.size p.2 ≤ (jsonStringifyChars p.2).length := by
          intro p hp
          have h1 : Json.size p.2 ≤ Json.sizeFields fs := Json.size_le_sizeFields hp
          have h2 := Json.size_pos v1
          apply ih (Json.size p.2) (by rw [hsz] at hv; omega)
          exact le_rfl
        have h1 := stringifyMoreFields_length fs hsub
        have h2 : Json.size v1 ≤ (jsonStringifyChars v1).length := by
          apply ih (Json.size v1) (by
            rw [hsz] at hv
            have := Json.size_pos v1
            omega)
          exact le_rfl
        have h3 := escapeChars_length k.data
        have h4 : k.length = k.data.length := rfl
        omega

theorem jsonParse_stringify (v : Json) : jsonParseChars (jsonStringifyChars v) = some v := by
  unfold jsonParseChars
  have h := (stringify_parse (2 * (jsonStringifyChars v).length + 2)).1 v []
    (by simp) (by have := stringify_length v; omega)
  rw [List.append_nil] at h
  rw [h]
  rfl

theorem decodeMessage_encode (m : Message) : decodeMessage (encodeMessage m) = some m := by
  rcases m with ⟨id, role, content, ts, liked, disliked⟩
  have hts : ¬ ((ts : Int) < 0) := by omega
  rcases role <;> rcases liked with _ | b1 <;> rcases disliked with _ | b2 <;>
    simp [encodeMessage, decodeMessage, decodeRole, decodeOptFlag, roleString,
          List.lookup, hts]

theorem decodeMessages_encode (ms : List Message) :
    decodeMessages (ms.map encodeMessage) = some ms := by
  induction ms with
  | nil => rfl
  | cons m ms ih =>
    rw [List.map_cons, decodeMessages, decodeMessage_encode, ih]
    rfl

theorem decodeSession_encode (s : ChatSession) : decodeSession (encodeSession s) = some s := by
  rcases s with ⟨id, title, messages, updatedAt⟩
  have hts : ¬ ((updatedAt : Int) < 0) := by omega
  simp [encodeSession, decodeSession, List.lookup, hts, decodeMessages_encode]

theorem decodeSessions_encode (ss : List ChatSession) :
    decodeSessions (encodeSessions ss) = some ss := by
  rw [show decodeSessions (encodeSessions ss) = decodeSessionList (ss.map encodeSession)
      from rfl]
  induction ss with
  | nil => rfl
  | cons s ss ih =>
    rw [List.map_cons, decodeSessionList, decodeSession_encode, ih]
    rfl

/-- C8: persisting the session collection and the current-session id and
reloading them through initialization reproduces the same collection, and
the previously selected id is restored exactly when it is still present in
(and a non-empty id of) the loaded collection, falling back to the first
session otherwise.  The collection is quantified as non-empty (`s0 :: rest`),
matching the store invariant that an empty collection is never persisted. -/
theorem claim_C8_persistence_roundtrip (s0 : ChatSession) (rest : List ChatSession) (cid : String) (now : Nat) :
    initSessions (some (jsonStringify (encodeSessions (s0 :: rest)))) (some cid) now =
      { sessions := s0 :: rest,
        currentSessionId := some
          (if cid ≠ "" && (s0 :: rest).any (fun s => s.id == cid) then cid else s0.id) } := by
  have hp : jsonParseStr (jsonStringify (encodeSessions (s0 :: rest))) =
      some (encodeSessions (s0 :: rest)) := jsonParse_stringify _
  unfold initSessions
  dsimp only
  rw [hp]
  dsimp only
  rw [decodeSessions_encode]

theorem matchHere_obj (fields : List (String × Json)) :
    matchHere (Json.obj fields) = specPriorityMatch fields := by
  rcases h1 : getFieldStr fields "text_response" with _ | s1 <;>
    rcases h2 : getFieldStr fields "output" with _ | s2 <;>
    rcases h3 : getFieldStr fields "response" with _ | s3 <;>
    rcases h4 : getFieldStr fields "message" with _ | s4 <;>
    rcases h5 : getFieldStr fields "content" with _ | s5 <;>
    simp [matchHere, specPriorityMatch, recognizedFields, List.findSome?_cons,
      h1, h2, h3, h4, h5]

/-- C1: for every JSON object exposing at least one recognized reply field
(in priority order `text_response`, `output`, `response`, `message`,
`content`) holding a non-empty string, the extractor returns exactly the
string held by the highest-priority such field, before recursing into any
children. -/
theorem claim_C1_extractor_field_priority (fields : List (String × Json)) (s : String)
    (h : specPriorityMatch fields = some s) :
    findResponseText (Json.obj fields) = some s := by
  have hsz : Json.size (Json.obj fields) = Json.sizeFields fields + 1 := by
    simp [Json.size]
    omega
  unfold findResponseText
  rw [hsz, findFuel_succ]
  simp [jsFalsy, matchHere_obj, h]

theorem claim_C1_extractor_field_priority_witness :
    specPriorityMatch [("foo", Json.obj [("text_response", Json.str "inner")]),
      ("message", Json.str "m"), ("output", Json.str "o")] = some "o" ∧
    findResponseText (Json.obj [("foo", Json.obj [("text_response", Json.str "inner")]),
      ("message", Json.str "m"), ("output", Json.str "o")]) = some "o" :=
  ⟨by decide, claim_C1_extractor_field_priority _ _ (by decide)⟩

/-- C2: the extractor is total — any fuel at least the size of the input
computes its fuel-independent value — and whenever no recognized field
holding a non-empty string occurs anywhere in the value (including inside
strings parsed as embedded JSON) the extractor returns null rather than
failing. -/
theorem claim_C2_extractor_terminates_null (v : Json) (n : Nat) (hn : Json.size v ≤ n) :
    findFuel n v = findResponseText v ∧
    (noMatchAnywhere (Json.size v) v = true → findResponseText v = none) := by
  constructor
  · exact findFuel_stable hn (Nat.le_refl _)
  · intro hnm
    exact noMatchAnywhere_findFuel_none _ _ hnm

theorem claim_C2_extractor_terminates_null_witness :
    Json.size (Json.obj [("foo", Json.arr [Json.null, Json.str "plain text"])]) ≤ 20 ∧
    (findFuel 20 (Json.obj [("foo", Json.arr [Json.null, Json.str "plain text"])]) =
        findResponseText (Json.obj [("foo", Json.arr [Json.null, Json.str "plain text"])]) ∧
      (noMatchAnywhere (Json.size (Json.obj [("foo", Json.arr [Json.null, Json.str "plain text"])]))
          (Json.obj [("foo", Json.arr [Json.null, Json.str "plain text"])]) = true →
        findResponseText (Json.obj [("foo", Json.arr [Json.null, Json.str "plain text"])]) = none)) :=
  ⟨by decide, claim_C2_extractor_terminates_null _ 20 (by decide)⟩

/-- C9: the extractor never returns the empty string: every result is
either null or a non-empty string, because every returned field value and
every propagated recursive result passes a truthiness check. -/
theorem claim_C9_extractor_never_empty (v : Json) :
    findResponseText v = none ∨ ∃ s, findResponseText v = some s ∧ s ≠ "" := by
  rcases h : findResponseText v with _ | s
  · exact Or.inl rfl
  · exact Or.inr ⟨s, rfl, findFuel_some_ne_empty _ _ _ h⟩
